import Mathlib

/-!
Verification development for the task-planner core (`scheduler/planner.go`).

The Go source is shallowly embedded: pure functions become Lean functions,
the pointer-sharing `UnitCache` (`map[string]*Unit`) becomes an arena of
units plus an association list from alias key to arena index, and the Go
`map[string]task.Task` inside a `Unit` becomes a list of tasks upserted by
task id (the Go map is keyed by `t.Id` at every insertion site, so the key
is always the task's own id).  Go `int64`/`int` arithmetic is modelled with
unbounded `Int` (the spec's §7 places overflow out of scope);
`time.Duration` values are nanosecond `Int`s and `time.Time` values are
unix-nanosecond `Int`s with `0` playing the role of the zero time.  The
float-valued `Duration.Minutes`/`Duration.Hours` conversions followed by
`math.Floor`/`int64` truncation are modelled in exact integer arithmetic.
Go map iteration order is nondeterministic, so the cache export takes the
iteration order as an explicit parameter; `UnitCache.Export` instantiates
it with the key insertion order.
-/

set_option maxRecDepth 100000

namespace Scheduler

/-! ### SHA-1 (crypto/sha1), executable, over UTF-8 bytes -/

/-- Truncate to a 32-bit word. -/
def w32 (n : Nat) : Nat := n % 4294967296

/-- Rotate a 32-bit word left by `s` bits. -/
def rotl (s n : Nat) : Nat := (w32 (n <<< s)) ||| (n >>> (32 - s))

/-- UTF-8 encoding of one character, as byte values. -/
def utf8Bytes (c : Char) : List Nat :=
  let n := c.toNat
  if n < 128 then [n]
  else if n < 2048 then [192 + n / 64, 128 + n % 64]
  else if n < 65536 then [224 + n / 4096, 128 + (n / 64) % 64, 128 + n % 64]
  else [240 + n / 262144, 128 + (n / 4096) % 64, 128 + (n / 64) % 64, 128 + n % 64]

/-- The bytes of a string (Go strings are UTF-8 byte sequences). -/
def strBytes (s : String) : List Nat := (s.data.map utf8Bytes).flatten

/-- SHA-1 message padding: `0x80`, zeros, then the 64-bit big-endian bit length. -/
def sha1Pad (m : List Nat) : List Nat :=
  let ml := m.length
  let k := (119 - ml % 64) % 64
  let bl := ml * 8
  m ++ [128] ++ List.replicate k 0 ++
    [(bl >>> 56) % 256, (bl >>> 48) % 256, (bl >>> 40) % 256, (bl >>> 32) % 256,
     (bl >>> 24) % 256, (bl >>> 16) % 256, (bl >>> 8) % 256, bl % 256]

/-- Group bytes into big-endian 32-bit words. -/
def beWords : List Nat → List Nat
  | b0 :: b1 :: b2 :: b3 :: rest => (((b0 * 256 + b1) * 256 + b2) * 256 + b3) :: beWords rest
  | _ => []

/-- Message-schedule expansion; `acc` holds the words produced so far, most recent first. -/
def sha1Expand : Nat → List Nat → List Nat
  | 0, acc => acc
  | n + 1, acc =>
    let x := rotl 1 ((acc.getD 2 0) ^^^ (acc.getD 7 0) ^^^ (acc.getD 13 0) ^^^ (acc.getD 15 0))
    sha1Expand n (x :: acc)

/-- The SHA-1 round function for round `i`. -/
def sha1F (i b c d : Nat) : Nat :=
  if i < 20 then (b &&& c) ||| ((4294967295 ^^^ b) &&& d)
  else if i < 40 then b ^^^ c ^^^ d
  else if i < 60 then (b &&& c) ||| (b &&& d) ||| (c &&& d)
  else b ^^^ c ^^^ d

/-- The SHA-1 round constant for round `i`. -/
def sha1K (i : Nat) : Nat :=
  if i < 20 then 1518500249
  else if i < 40 then 1859775393
  else if i < 60 then 2400959708
  else 3395469782

/-- Run the 80 SHA-1 rounds over the expanded schedule. -/
def sha1Rounds : Nat → List Nat → Nat × Nat × Nat × Nat × Nat → Nat × Nat × Nat × Nat × Nat
  | _, [], st => st
  | i, w :: rest, (a, b, c, d, e) =>
    let t := w32 (rotl 5 a + sha1F i b c d + e + sha1K i + w)
    sha1Rounds (i + 1) rest (t, a, rotl 30 b, c, d)

/-- Compress one 64-byte block into the running hash state. -/
def sha1Block (h : Nat × Nat × Nat × Nat × Nat) (block : List Nat) :
    Nat × Nat × Nat × Nat × Nat :=
  let ws := (sha1Expand 64 (beWords block).reverse).reverse
  match h, sha1Rounds 0 ws h with
  | (h0, h1, h2, h3, h4), (a, b, c, d, e) =>
    (w32 (h0 + a), w32 (h1 + b), w32 (h2 + c), w32 (h3 + d), w32 (h4 + e))

/-- One lowercase hex digit. -/
def hexChar (n : Nat) : Char := Char.ofNat (if n < 10 then 48 + n else 87 + n)

/-- Eight lowercase hex digits of a 32-bit word (`fmt.Sprintf "%x"` output). -/
def wordHex (w : Nat) : List Char :=
  [hexChar ((w >>> 28) % 16), hexChar ((w >>> 24) % 16), hexChar ((w >>> 20) % 16),
   hexChar ((w >>> 16) % 16), hexChar ((w >>> 12) % 16), hexChar ((w >>> 8) % 16),
   hexChar ((w >>> 4) % 16), hexChar (w % 16)]

/-- Hex-encoded SHA-1 digest of a string, as produced by
`fmt.Sprintf("%x", hash.Sum(nil))` over a `crypto/sha1` hash. -/
def sha1Hex (s : String) : String :=
  let padded := sha1Pad (strBytes s)
  let nb := padded.length / 64
  match (List.range nb).foldl
      (fun h i => sha1Block h ((padded.drop (64 * i)).take 64))
      (1732584193, 4023233417, 2562383102, 271733878, 3285377520) with
  | (h0, h1, h2, h3, h4) =>
    String.mk (wordHex h0 ++ wordHex h1 ++ wordHex h2 ++ wordHex h3 ++ wordHex h4)

/-- Sanity anchor: the FIPS 180-1 test vector for `"abc"`. -/
theorem sha1Hex_abc : sha1Hex "abc" = "a9993e364706816aba3e25717850c26c9cd0d89d" := by decide

/-- Sanity anchor: the digest of the empty string. -/
theorem sha1Hex_empty : sha1Hex "" = "da39a3ee5e6b4b0d3255bfef95601890afd80709" := by decide

/-! ### Data model -/

/-- Modelled from the spec: `distro.PlannerSettings` lives in the distro
package, outside the planner source; §6 lists it as a bundle of tuning
factors with the getters used below. -/
structure PlannerSettings where
  GroupVersions : Bool
  PatchFactor : Int
  PatchTimeInQueueFactor : Int
  CommitQueueFactor : Int
  MainlineTimeInQueueFactor : Int
  StepbackTaskFactor : Int
  GenerateTaskFactor : Int
  ExpectedRuntimeFactor : Int
deriving DecidableEq, Repr, Inhabited

def PlannerSettings.ShouldGroupVersions (s : PlannerSettings) : Bool := s.GroupVersions

def PlannerSettings.GetPatchFactor (s : PlannerSettings) : Int := s.PatchFactor

def PlannerSettings.GetPatchTimeInQueueFactor (s : PlannerSettings) : Int :=
  s.PatchTimeInQueueFactor

def PlannerSettings.GetCommitQueueFactor (s : PlannerSettings) : Int := s.CommitQueueFactor

def PlannerSettings.GetMainlineTimeInQueueFactor (s : PlannerSettings) : Int :=
  s.MainlineTimeInQueueFactor

def PlannerSettings.GetStepbackTaskFactor (s : PlannerSettings) : Int := s.StepbackTaskFactor

def PlannerSettings.GetGenerateTaskFactor (s : PlannerSettings) : Int := s.GenerateTaskFactor

def PlannerSettings.GetExpectedRuntimeFactor (s : PlannerSettings) : Int :=
  s.ExpectedRuntimeFactor

/-- Modelled from the spec: the distro descriptor (read-only for the planner)
carrying `PlannerSettings`. -/
structure Distro where
  PlannerSettings : PlannerSettings
deriving DecidableEq, Repr, Inhabited

/-- One `DependsOn` entry; the planner reads only its `TaskId` field. -/
structure Dependency where
  TaskId : String
deriving DecidableEq, Repr, Inhabited

/-- The task attributes the planner reads (`model/task`, outside the planner
source; fields as enumerated in §3 of the spec).  Times are unix
nanoseconds with `0` for Go's zero `time.Time`; `ExpectedDurationAverage`
models `FetchExpectedDuration().Average` in nanoseconds. -/
structure Task where
  Id : String
  Version : String
  BuildVariant : String
  Project : String
  TaskGroup : String
  TaskGroupOrder : Int
  Priority : Int
  NumDependents : Int
  DependsOn : List Dependency
  Requester : String
  GenerateTask : Bool
  ActivatedBy : String
  ActivatedTime : Int
  IngestTime : Int
  ExpectedDurationAverage : Int
deriving DecidableEq, Repr, Inhabited

/-- Modelled from the spec: `GetTaskGroupString` is a composite identifier
combining group name, build variant, project and version (§4.6). -/
def Task.GetTaskGroupString (t : Task) : String :=
  t.TaskGroup ++ "_" ++ t.BuildVariant ++ "_" ++ t.Project ++ "_" ++ t.Version

/-- Modelled from the spec: the commit-queue provenance class of requesters
(the `evergreen` package is outside the planner source). -/
def IsCommitQueueRequester (r : String) : Bool := r = "merge_test"

/-- Modelled from the spec: the merge-queue variant of the commit-queue
class. -/
def IsGithubMergeQueueRequester (r : String) : Bool := r = "github_merge_request"

/-- Modelled from the spec: the patch provenance class; it overlaps the
commit-queue class (§4.2 calls the flags orthogonal and the design notes
say one task can be marked both). -/
def IsPatchRequester (r : String) : Bool :=
  r = "patch_request" || r = "github_pull_request" || r = "merge_test"

/-- Modelled from the spec: the `ActivatedBy` tag that marks stepback
bisection. -/
def StepbackTaskActivator : String := "stepback"

/-! ### Unit -/

/-- Unit is a holder of a group of related tasks, as in the Go source.  The
Go field `tasks : map[string]task.Task` is modelled as a list of tasks
upserted by task id: every Go insertion site writes `unit.tasks[t.Id] = t`,
so the map key always equals the task's own `Id`. -/
structure Unit where
  tasks : List Task
  cachedValue : Int
  id : String
  distro : Option Distro
deriving DecidableEq, Repr, Inhabited

/-- Go map assignment `m[t.Id] = t`: replace the entry with the same id, or
append the new entry. -/
def upsertTask : List Task → Task → List Task
  | [], t => [t]
  | x :: rest, t => if x.Id = t.Id then t :: rest else x :: upsertTask rest t

/-- MakeUnit constructs a new unit, caching a distro reference (may be none). -/
def MakeUnit (d : Option Distro) : Unit :=
  { tasks := [], cachedValue := 0, id := "", distro := d }

/-- Add caches a task in the unit (`unit.tasks[t.Id] = t`). -/
def Unit.Add (unit : Unit) (t : Task) : Unit :=
  { unit with tasks := upsertTask unit.tasks t }

/-- NewUnit constructs a new Unit container for a task. -/
def NewUnit (t : Task) : Unit := (MakeUnit none).Add t

/-- SetDistro stores the distro reference; a nil distro is ignored. -/
def Unit.SetDistro (unit : Unit) (d : Option Distro) : Unit :=
  match d with
  | none => unit
  | some _ => { unit with distro := d }

/-- Export returns the unit's tasks (the Go map's values). -/
def Unit.Export (unit : Unit) : List Task := unit.tasks

/-- Keys returns all of the ids of tasks in the unit (the Go map's keys). -/
def Unit.Keys (unit : Unit) : List String := unit.tasks.map Task.Id

/-- Byte-lexicographic comparison of char lists (UTF-8 byte order and
codepoint order agree). -/
def charListLe : List Char → List Char → Bool
  | [], _ => true
  | _ :: _, [] => false
  | a :: as, b :: bs =>
    if a.toNat < b.toNat then true
    else if b.toNat < a.toNat then false
    else charListLe as bs

/-- Go's `sort.StringSlice` order: byte-lexicographic `≤` on strings. -/
def strle (a b : String) : Bool := charListLe a.data b.data

/-- The `strle` order as a decidable relation. -/
abbrev StringLeB (a b : String) : Prop := strle a b = true

/-- Sorting a list of strings as `sort.Sort(sort.StringSlice(...))` does. -/
def sortStrings (l : List String) : List String :=
  List.insertionSort StringLeB l

/-- ID constructs the memoized hashed ID of all the tasks in the unit:
SHA-1 over the lexicographically sorted task ids (written back-to-back
with no separator), hex-encoded. -/
def Unit.ID (unit : Unit) : String :=
  if unit.id ≠ "" then unit.id
  else sha1Hex (String.join (sortStrings unit.Keys))

/-- The aggregation snapshot of a unit (Go struct `unitInfo`). -/
structure unitInfo where
  TaskIDs : List String
  Settings : PlannerSettings
  ExpectedRuntime : Int
  TimeInQueue : Int
  TotalPriority : Int
  NumDeps : Int
  ContainsInCommitQueue : Bool
  ContainsInPatch : Bool
  ContainsNonGroupTasks : Bool
  ContainsGenerateTask : Bool
  ContainsStepbackTask : Bool
deriving DecidableEq, Repr, Inhabited

/-- Go `int64(math.Floor(d.Minutes() / float64(len)))`, modelled in exact
arithmetic: the floor of `d` nanoseconds divided by `len` minutes. -/
def minutesFloorPer (d len : Int) : Int := Int.fdiv d (60000000000 * len)

/-- Go `int64(d.Hours())` for a duration that is non-negative at every call
site: truncating conversion of `d` nanoseconds to whole hours. -/
def hoursTrunc (d : Int) : Int := Int.tdiv d 3600000000000

/-- Seven days in nanoseconds (`time.Duration(7*24) * time.Hour`). -/
def sevenDaysNs : Int := 604800000000000

/-- The scoring function `unitInfo.value()`, line for line from the Go
source.  Go `int64` division truncates toward zero, hence `Int.tdiv`. -/
def unitInfo.value (u : unitInfo) : Int :=
  let length : Int := u.TaskIDs.length
  let priority0 : Int := 1 + u.TotalPriority.tdiv length
  let priority1 : Int := if !u.ContainsNonGroupTasks then priority0 + length else priority0
  let priority2 : Int :=
    if u.ContainsGenerateTask then priority1 * u.Settings.GetGenerateTaskFactor else priority1
  let branch : Int × Int :=
    if u.ContainsInPatch then
      (priority2 * u.Settings.GetPatchFactor
        + priority2 * u.Settings.GetPatchTimeInQueueFactor
            * minutesFloorPer u.TimeInQueue length,
       priority2)
    else if u.ContainsInCommitQueue then
      let priority3 := priority2 + 200
      (priority3 * u.Settings.GetCommitQueueFactor, priority3)
    else
      let avgLifeTime := u.TimeInQueue.tdiv length
      let mainline0 : Int :=
        if avgLifeTime < sevenDaysNs then
          u.Settings.GetMainlineTimeInQueueFactor * hoursTrunc (sevenDaysNs - avgLifeTime)
        else 0
      let mainline1 : Int :=
        if u.ContainsStepbackTask then mainline0 + u.Settings.GetStepbackTaskFactor
        else mainline0
      (priority2 * mainline1, priority2)
  branch.1 + length + branch.2 + branch.2 * u.NumDeps.tdiv length
    + branch.2 * u.Settings.GetExpectedRuntimeFactor
        * minutesFloorPer u.ExpectedRuntime length

/-- The body of the task loop in `Unit.info`: one task's contribution to
the aggregation snapshot; `now` is the clock instant `time.Since` reads. -/
def infoStep (now : Int) (info : unitInfo) (t : Task) : unitInfo :=
    let info :=
      if IsCommitQueueRequester t.Requester || IsGithubMergeQueueRequester t.Requester then
        { info with ContainsInCommitQueue := true }
      else if IsPatchRequester t.Requester then
        { info with ContainsInPatch := true }
      else info
    let info :=
      { info with
        ContainsNonGroupTasks := info.ContainsNonGroupTasks || t.TaskGroup = ""
        ContainsGenerateTask := info.ContainsGenerateTask || t.GenerateTask
        ContainsStepbackTask :=
          info.ContainsStepbackTask || t.ActivatedBy = StepbackTaskActivator }
    let info :=
      if t.ActivatedTime ≠ 0 then
        { info with TimeInQueue := info.TimeInQueue + (now - t.ActivatedTime) }
      else if t.IngestTime ≠ 0 then
        { info with TimeInQueue := info.TimeInQueue + (now - t.IngestTime) }
      else info
    { info with
      TotalPriority := info.TotalPriority + t.Priority
      ExpectedRuntime := info.ExpectedRuntime + t.ExpectedDurationAverage
      NumDeps := info.NumDeps + t.NumDependents
      TaskIDs := info.TaskIDs ++ [t.Id] }

/-- The all-zero snapshot `unitInfo{Settings: unit.distro.PlannerSettings}`
the loop starts from (Go would dereference a nil distro here; the model
reads the default settings instead, and every ranking theorem assumes the
distro is set). -/
def infoInit (unit : Unit) : unitInfo :=
  { TaskIDs := []
    Settings := ((unit.distro.getD default).PlannerSettings)
    ExpectedRuntime := 0
    TimeInQueue := 0
    TotalPriority := 0
    NumDeps := 0
    ContainsInCommitQueue := false
    ContainsInPatch := false
    ContainsNonGroupTasks := false
    ContainsGenerateTask := false
    ContainsStepbackTask := false }

/-- Computes the aggregation snapshot of the unit (Go `Unit.info`), folding
over the unit's tasks. -/
def Unit.info (unit : Unit) (now : Int) : unitInfo :=
  unit.tasks.foldl (infoStep now) (infoInit unit)

/-- RankValue returns the memoized point value of the unit; zero is the
"uncomputed" sentinel. -/
def Unit.RankValue (unit : Unit) (now : Int) : Int :=
  if unit.cachedValue > 0 then unit.cachedValue
  else (unit.info now).value

/-- RankValue together with the memo write it performs on the unit. -/
def Unit.RankValueMemo (unit : Unit) (now : Int) : Int × Unit :=
  if unit.cachedValue > 0 then (unit.cachedValue, unit)
  else
    let v := (unit.info now).value
    (v, { unit with cachedValue := v })

/-! ### TaskList ordering -/

/-- A sortable collection of tasks, ordering tasks within a unit. -/
abbrev TaskList := List Task

/-- The `TaskList.Less` comparison: task-group order, then number of
dependents (descending), then priority (descending), then expected
duration (descending). -/
def TaskList.Less (t1 t2 : Task) : Bool :=
  if t1.TaskGroupOrder ≠ t2.TaskGroupOrder then decide (t1.TaskGroupOrder < t2.TaskGroupOrder)
  else if t1.NumDependents ≠ t2.NumDependents then decide (t2.NumDependents < t1.NumDependents)
  else if t1.Priority ≠ t2.Priority then decide (t2.Priority < t1.Priority)
  else decide (t2.ExpectedDurationAverage < t1.ExpectedDurationAverage)

/-- Sorting a task list consistently with `TaskList.Less` (ties keep their
input order, matching a deterministic run of `sort.Sort`). -/
def sortTasks (l : TaskList) : TaskList :=
  List.insertionSort (fun a b => TaskList.Less b a = false) l

/-! ### UnitCache -/

/-- UnitCache stores the schedulable units.  The Go value is
`map[string]*Unit`, whose entries alias shared mutable `Unit` objects;
this is modelled as an arena `units` of unit values together with the
association list `cache` from alias key to arena index, so that a mutation
through one alias is visible through every alias of the same unit. -/
structure UnitCache where
  units : List Unit
  cache : List (String × Nat)
deriving DecidableEq, Repr, Inhabited

/-- Association-list lookup by key (first binding wins; the planner never
rebinds a key, so there is at most one). -/
def alookup (c : List (String × Nat)) (k : String) : Option Nat :=
  (c.find? (fun p => p.1 = k)).map Prod.snd

/-- Map lookup `cache[id]`, as the arena index the key aliases. -/
def UnitCache.lookup (st : UnitCache) (k : String) : Option Nat :=
  alookup st.cache k

/-- The unit value an arena index denotes. -/
def UnitCache.getUnit (st : UnitCache) (i : Nat) : Unit :=
  st.units.getD i default

/-- In-place mutation of the unit object at arena index `i`. -/
def UnitCache.modifyUnit (st : UnitCache) (i : Nat) (f : Unit → Unit) : UnitCache :=
  { st with units := st.units.set i (f (st.getUnit i)) }

/-- Exists returns whether the key is in the cache. -/
def UnitCache.Exists (st : UnitCache) (k : String) : Bool := (st.lookup k).isSome

/-- Create makes a new unit around the task, registering it under the key,
or extends the unit the key already names; it returns the resulting unit
(as its arena index). -/
def UnitCache.Create (st : UnitCache) (k : String) (t : Task) : Nat × UnitCache :=
  match st.lookup k with
  | some i => (i, st.modifyUnit i (fun u => u.Add t))
  | none =>
    let n := st.units.length
    (n, { units := st.units ++ [NewUnit t], cache := st.cache ++ [(k, n)] })

/-- AddNew registers the unit (an arena index) under the key; if the key
already names a unit, it instead copies every task of the argument unit
into the existing one. -/
def UnitCache.AddNew (st : UnitCache) (k : String) (i : Nat) : UnitCache :=
  match st.lookup k with
  | some j => st.modifyUnit j (fun uj => (st.getUnit i).tasks.foldl Unit.Add uj)
  | none => { st with cache := st.cache ++ [(k, i)] }

/-- AddWhen is a no-op when the conditional is false; otherwise it adds the
task to the unit the key names, or creates one. -/
def UnitCache.AddWhen (st : UnitCache) (cond : Bool) (k : String) (t : Task) : UnitCache :=
  if !cond then st
  else
    match st.lookup k with
    | some i => st.modifyUnit i (fun u => u.Add t)
    | none => (st.Create k t).2

/-- SetDistro on the unit object at arena index `i`. -/
def UnitCache.setDistroAt (st : UnitCache) (i : Nat) (d : Option Distro) : UnitCache :=
  st.modifyUnit i (fun u => u.SetDistro d)

/-- An ordered collection of units. -/
abbrev TaskPlan := List Unit

/-- The body of `UnitCache.Export`: walk the keys in iteration order,
emitting each distinct `Unit.ID()` at most once (`seen.Visit` records the
ID before the nil-distro check, exactly as in the source). -/
def exportLoop (st : UnitCache) (ord seen : List String) (acc : TaskPlan) : TaskPlan :=
  match ord with
  | [] => acc
  | k :: rest =>
    match st.lookup k with
    | none => exportLoop st rest seen acc
    | some i =>
      let u := st.getUnit i
      if u.ID ∈ seen then exportLoop st rest seen acc
      else if u.distro = none then exportLoop st rest (u.ID :: seen) acc
      else exportLoop st rest (u.ID :: seen) (acc ++ [u])

/-- Export with an explicit map-iteration order over the cache keys (Go
iterates `for id := range cache` in unspecified order). -/
def UnitCache.ExportOrd (st : UnitCache) (ord : List String) : TaskPlan :=
  exportLoop st ord [] []

/-- Export returns the unique units of the cache; the canonical run visits
the keys in insertion order. -/
def UnitCache.Export (st : UnitCache) : TaskPlan :=
  st.ExportOrd (st.cache.map Prod.fst)

/-! ### TaskPlan export and assembly -/

/-- Sorting the plan by descending `RankValue` (ties keep their input
order, matching a deterministic run of `sort.Sort`). -/
def sortUnits (now : Int) (tpl : TaskPlan) : TaskPlan :=
  List.insertionSort (fun u v => (decide (v.RankValue now > u.RankValue now)) = false) tpl

/-- The deduplicating flattening loop of `TaskPlan.Export`: keep each task
whose id is not yet in the seen set. -/
def dedupTasks (l : List Task) (seen : List String) : List Task :=
  match l with
  | [] => []
  | t :: rest =>
    if t.Id ∈ seen then dedupTasks rest seen
    else t :: dedupTasks rest (t.Id :: seen)

/-- TaskPlan.Export sorts the units by rank, sorts each unit's tasks by the
TaskList order, and flattens to a task sequence deduplicated by id. -/
def TaskPlan.Export (tpl : TaskPlan) (now : Int) : List Task :=
  dedupTasks (((sortUnits now tpl).map (fun u => sortTasks u.Export)).flatten) []

/-- One iteration of the first (grouping) pass of
`PrepareTasksForPlanning`. -/
def pass1Step (d : Distro) (st : UnitCache) (t : Task) : UnitCache :=
  if t.TaskGroup ≠ "" then
    let c := st.Create t.GetTaskGroupString t
    ((c.2.AddNew t.Id c.1).AddWhen d.PlannerSettings.ShouldGroupVersions
      t.Version t).setDistroAt c.1 (some d)
  else if d.PlannerSettings.ShouldGroupVersions then
    let c := st.Create t.Version t
    (c.2.AddNew t.Id c.1).setDistroAt c.1 (some d)
  else
    let c := st.Create t.Id t
    c.2.setDistroAt c.1 (some d)

/-- Processing one dependency reference of task `t` in the second pass:
`cache.AddWhen(cache.Exists(dep.TaskId), dep.TaskId, t)`. -/
def pass2Dep (t : Task) (st : UnitCache) (dep : Dependency) : UnitCache :=
  st.AddWhen (st.Exists dep.TaskId) dep.TaskId t

/-- One iteration of the second (dependency fan-in) pass. -/
def pass2Step (st : UnitCache) (t : Task) : UnitCache :=
  t.DependsOn.foldl (pass2Dep t) st

/-- The populated cache `PrepareTasksForPlanning` builds before exporting. -/
def PrepareCache (d : Distro) (tasks : List Task) : UnitCache :=
  tasks.foldl pass2Step (tasks.foldl (pass1Step d) { units := [], cache := [] })

/-- PrepareTasksForPlanning groups the tasks of a distro into units and
exports the resulting plan. -/
def PrepareTasksForPlanning (d : Distro) (tasks : List Task) : TaskPlan :=
  (PrepareCache d tasks).Export

/-! ### The string order used by `Unit.ID` -/

theorem charListLe_total : ∀ a b : List Char, charListLe a b = true ∨ charListLe b a = true := by
  intro a
  induction a with
  | nil => intro b; left; rfl
  | cons x xs ih =>
    intro b
    cases b with
    | nil => right; rfl
    | cons y ys =>
      by_cases h1 : x.toNat < y.toNat
      · left; simp [charListLe, h1]
      · by_cases h2 : y.toNat < x.toNat
        · right; simp [charListLe, h2]
        · rcases ih ys with h | h
          · left; simpa [charListLe, h1, h2] using h
          · right; simpa [charListLe, h1, h2] using h

theorem charListLe_trans :
    ∀ a b c : List Char, charListLe a b = true → charListLe b c = true →
      charListLe a c = true := by
  intro a
  induction a with
  | nil => intro b c _ _; rfl
  | cons x xs ih =>
    intro b c hab hbc
    cases b with
    | nil => simp [charListLe] at hab
    | cons y ys =>
      cases c with
      | nil => simp [charListLe] at hbc
      | cons z zs =>
        simp only [charListLe] at hab hbc ⊢
        split_ifs at hab hbc ⊢ with h h' h'' <;> try omega
        all_goals first
          | rfl
          | (exact ih ys zs hab hbc)
          | omega
          | simp_all

theorem charListLe_antisymm :
    ∀ a b : List Char, charListLe a b = true → charListLe b a = true → a = b := by
  intro a
  induction a with
  | nil =>
    intro b _ hba
    cases b with
    | nil => rfl
    | cons y ys => simp [charListLe] at hba
  | cons x xs ih =>
    intro b hab hba
    cases b with
    | nil => simp [charListLe] at hab
    | cons y ys =>
      simp only [charListLe] at hab hba
      split_ifs at hab hba with h h'
      · omega
      · have hn : x.toNat = y.toNat := by omega
        have hxy : x = y := Char.eq_of_val_eq (UInt32.toNat.inj hn)
        rw [hxy, ih ys hab hba]

instance : IsTotal String StringLeB :=
  ⟨fun a b => charListLe_total a.data b.data⟩

instance : IsTrans String StringLeB :=
  ⟨fun a b c => charListLe_trans a.data b.data c.data⟩

instance : IsAntisymm String StringLeB :=
  ⟨fun a b hab hba => String.ext (charListLe_antisymm a.data b.data hab hba)⟩

theorem sortStrings_perm (l : List String) : (sortStrings l).Perm l :=
  List.perm_insertionSort StringLeB l

theorem sortStrings_eq_of_perm {l1 l2 : List String} (h : l1.Perm l2) :
    sortStrings l1 = sortStrings l2 :=
  List.eq_of_perm_of_sorted
    ((sortStrings_perm l1).trans (h.trans (sortStrings_perm l2).symm))
    (List.sorted_insertionSort StringLeB l1)
    (List.sorted_insertionSort StringLeB l2)

/-! ### Basic lemmas about `Unit` operations -/

theorem Unit.Add_id (u : Unit) (t : Task) : (u.Add t).id = u.id := rfl

theorem Unit.Add_distro (u : Unit) (t : Task) : (u.Add t).distro = u.distro := rfl

theorem mem_map_id_upsert (l : List Task) (t : Task) (x : String) :
    x ∈ (upsertTask l t).map Task.Id ↔ x = t.Id ∨ x ∈ l.map Task.Id := by
  induction l with
  | nil => simp [upsertTask]
  | cons a as ih =>
    by_cases h : a.Id = t.Id
    · rw [show upsertTask (a :: as) t = t :: as from by simp [upsertTask, h]]
      simp only [List.map_cons, List.mem_cons, h]
      tauto
    · rw [show upsertTask (a :: as) t = a :: upsertTask as t from by simp [upsertTask, h]]
      simp only [List.map_cons, List.mem_cons, ih]
      tauto

theorem nodup_map_id_upsert (l : List Task) (t : Task) (h : (l.map Task.Id).Nodup) :
    ((upsertTask l t).map Task.Id).Nodup := by
  induction l with
  | nil => simp [upsertTask]
  | cons a as ih =>
    simp only [List.map_cons, List.nodup_cons] at h
    by_cases ha : a.Id = t.Id
    · simp only [upsertTask, if_pos ha, List.map_cons, List.nodup_cons]
      exact ⟨by rw [← ha]; exact h.1, h.2⟩
    · simp only [upsertTask, if_neg ha, List.map_cons, List.nodup_cons]
      refine ⟨?_, ih h.2⟩
      rw [mem_map_id_upsert]
      push_neg
      exact ⟨ha, h.1⟩

theorem upsertTask_eq_self (l : List Task) (t : Task) (hnd : (l.map Task.Id).Nodup)
    (hmem : t ∈ l) : upsertTask l t = l := by
  induction l with
  | nil => cases hmem
  | cons a as ih =>
    simp only [List.map_cons, List.nodup_cons] at hnd
    rcases List.mem_cons.mp hmem with rfl | hmem'
    · simp [upsertTask]
    · have ha : a.Id ≠ t.Id := by
        intro hc
        exact hnd.1 (hc ▸ List.mem_map_of_mem Task.Id hmem')
      simp [upsertTask, ha, ih hnd.2 hmem']

theorem mem_Keys_Add (u : Unit) (t : Task) (x : String) :
    x ∈ (u.Add t).Keys ↔ x = t.Id ∨ x ∈ u.Keys :=
  mem_map_id_upsert u.tasks t x

theorem foldl_Add_id (l : List Task) (u : Unit) : (l.foldl Unit.Add u).id = u.id := by
  induction l generalizing u with
  | nil => rfl
  | cons t ts ih => simpa using ih (u.Add t)

theorem foldl_Add_distro (l : List Task) (u : Unit) :
    (l.foldl Unit.Add u).distro = u.distro := by
  induction l generalizing u with
  | nil => rfl
  | cons t ts ih => simpa using ih (u.Add t)

theorem mem_Keys_foldl_Add (l : List Task) (u : Unit) (x : String) :
    x ∈ (l.foldl Unit.Add u).Keys ↔ x ∈ u.Keys ∨ x ∈ l.map Task.Id := by
  induction l generalizing u with
  | nil => simp
  | cons t ts ih =>
    simp only [List.foldl_cons, ih (u.Add t), mem_Keys_Add, List.map_cons, List.mem_cons]
    tauto

theorem nodup_Keys_foldl_Add (l : List Task) (u : Unit) (h : u.Keys.Nodup) :
    (l.foldl Unit.Add u).Keys.Nodup := by
  induction l generalizing u with
  | nil => exact h
  | cons t ts ih => exact ih (u.Add t) (nodup_map_id_upsert u.tasks t h)

theorem ID_eq_of_sorted_Keys_eq (u v : Unit) (hu : u.id = "") (hv : v.id = "")
    (h : sortStrings u.Keys = sortStrings v.Keys) : u.ID = v.ID := by
  simp only [Unit.ID, hu, hv, ne_eq, not_true_eq_false, if_false, ite_false]
  rw [h]

/-! ### Concrete fixtures used by witnesses and counterexamples -/

/-- A minimal mainline task with the given id. -/
def mkTask (id : String) : Task :=
  { Id := id, Version := "v", BuildVariant := "bv", Project := "p", TaskGroup := "",
    TaskGroupOrder := 0, Priority := 0, NumDependents := 0, DependsOn := [],
    Requester := "gitter_request", GenerateTask := false, ActivatedBy := "",
    ActivatedTime := 0, IngestTime := 0, ExpectedDurationAverage := 0 }

/-- Planner settings with version grouping off and all factors zero. -/
def settings0 : PlannerSettings :=
  { GroupVersions := false, PatchFactor := 0, PatchTimeInQueueFactor := 0,
    CommitQueueFactor := 0, MainlineTimeInQueueFactor := 0, StepbackTaskFactor := 0,
    GenerateTaskFactor := 0, ExpectedRuntimeFactor := 0 }

def distro0 : Distro := { PlannerSettings := settings0 }

/-- The same settings with version grouping enabled. -/
def settingsGV : PlannerSettings := { settings0 with GroupVersions := true }

def distroGV : Distro := { PlannerSettings := settingsGV }

def taskA : Task := mkTask "a"

/-- A task depending on `taskA`. -/
def taskB : Task := { mkTask "b" with DependsOn := [{ TaskId := "a" }] }

/-- A task whose id is the concatenation of the ids of `taskA` and `taskB`. -/
def taskAB : Task := mkTask "ab"

/-- A task-group member. -/
def taskG : Task := { mkTask "a" with TaskGroup := "g" }

/-- The cache built from a dependency pair: the unit keyed `"a"` holds both
tasks, the unit keyed `"b"` holds only `taskB`. -/
def stDep : UnitCache := PrepareCache distro0 [taskA, taskB]

/-- The cache built from one task-group task with version grouping on: two
alias keys for the group unit, plus a version unit that never gets a
distro. -/
def stGV : UnitCache := PrepareCache distroGV [taskG]

/-! ### C7 -/

/-- C7: `Unit.ID()` equals the hex-encoded SHA-1 hash of the concatenation
of the lexicographically sorted task ids (whenever the memo field is still
unset), and is independent of insertion order: folding `Add` over any two
permutations of the same task list yields units with equal `ID()`. -/
theorem c7_id_insertion_order_invariant :
    (∀ u : Unit, u.id = "" → u.ID = sha1Hex (String.join (sortStrings u.Keys))) ∧
    (∀ l1 l2 : List Task, l1.Perm l2 →
      (l1.foldl Unit.Add (MakeUnit none)).ID = (l2.foldl Unit.Add (MakeUnit none)).ID) := by
  constructor
  · intro u hu
    simp [Unit.ID, hu]
  · intro l1 l2 h
    apply ID_eq_of_sorted_Keys_eq _ _ (foldl_Add_id l1 _) (foldl_Add_id l2 _)
    apply sortStrings_eq_of_perm
    apply List.perm_of_nodup_nodup_toFinset_eq
      (nodup_Keys_foldl_Add l1 _ (by simp [MakeUnit, Unit.Keys]))
      (nodup_Keys_foldl_Add l2 _ (by simp [MakeUnit, Unit.Keys]))
    apply Finset.ext
    intro x
    have hm := (h.map Task.Id).mem_iff (a := x)
    simp only [List.mem_toFinset, mem_Keys_foldl_Add]
    simp [Unit.Keys, MakeUnit, hm]

/-- Witness for C7 at a concrete pair of insertion orders. -/
theorem c7_witness :
    (MakeUnit none).Add taskA = ([] : List Task).foldl Unit.Add ((MakeUnit none).Add taskA) ∧
    List.Perm [taskA, taskB] [taskB, taskA] ∧
    ([taskA, taskB].foldl Unit.Add (MakeUnit none)).ID
      = ([taskB, taskA].foldl Unit.Add (MakeUnit none)).ID :=
  ⟨rfl, by decide,
    c7_id_insertion_order_invariant.2 [taskA, taskB] [taskB, taskA] (by decide)⟩

/-! ### C8 -/

/-- The unit holding only `mkTask "a"` (priority zero). -/
def unit8 : Unit := (MakeUnit none).Add (mkTask "a")

/-- A task with the same id as the resident of `unit8` but different
priority. -/
def task8 : Task := { mkTask "a" with Priority := 5 }

/-- C8 counterexample: adding a task whose id is already present but whose
fields differ overwrites the stored task, so the unit and its rank
snapshot change. -/
theorem c8_counterexample :
    task8.Id ∈ unit8.Keys ∧
    unit8.Add task8 ≠ unit8 ∧
    ((unit8.Add task8).info 0).TotalPriority = 5 ∧
    (unit8.info 0).TotalPriority = 0 := by decide

/-- C8 as amended: adding a task that is already a member of the unit (same
id and same attribute values) leaves the unit — hence its member set, its
`ID()` and its rank snapshot — entirely unchanged. -/
theorem c8_add_of_mem_eq_self (u : Unit) (t : Task)
    (hnd : u.Keys.Nodup) (hmem : t ∈ u.tasks) : u.Add t = u := by
  unfold Unit.Add
  rw [upsertTask_eq_self u.tasks t hnd hmem]

/-- Witness for C8 at a concrete unit and member task. -/
theorem c8_witness :
    unit8.Keys.Nodup ∧ mkTask "a" ∈ unit8.tasks ∧ unit8.Add (mkTask "a") = unit8 :=
  ⟨by decide, by decide, c8_add_of_mem_eq_self _ _ (by decide) (by decide)⟩

/-! ### C3 -/

/-- The §4.4 provenance branch as the spec words it: the patch branch is
guarded by `ContainsInPatch ∧ ¬ContainsInCommitQueue`, so the commit-queue
branch executes whenever `ContainsInCommitQueue` is set.  This definition
follows the spec's words, not the source, and exists only to be compared
against `unitInfo.value`. -/
def unitInfo.valueSpecCQPrecedence (u : unitInfo) : Int :=
  let length : Int := u.TaskIDs.length
  let priority0 : Int := 1 + u.TotalPriority.tdiv length
  let priority1 : Int := if !u.ContainsNonGroupTasks then priority0 + length else priority0
  let priority2 : Int :=
    if u.ContainsGenerateTask then priority1 * u.Settings.GetGenerateTaskFactor else priority1
  let branch : Int × Int :=
    if u.ContainsInPatch && !u.ContainsInCommitQueue then
      (priority2 * u.Settings.GetPatchFactor
        + priority2 * u.Settings.GetPatchTimeInQueueFactor
            * minutesFloorPer u.TimeInQueue length,
       priority2)
    else if u.ContainsInCommitQueue then
      let priority3 := priority2 + 200
      (priority3 * u.Settings.GetCommitQueueFactor, priority3)
    else
      let avgLifeTime := u.TimeInQueue.tdiv length
      let mainline0 : Int :=
        if avgLifeTime < sevenDaysNs then
          u.Settings.GetMainlineTimeInQueueFactor * hoursTrunc (sevenDaysNs - avgLifeTime)
        else 0
      let mainline1 : Int :=
        if u.ContainsStepbackTask then mainline0 + u.Settings.GetStepbackTaskFactor
        else mainline0
      (priority2 * mainline1, priority2)
  branch.1 + length + branch.2 + branch.2 * u.NumDeps.tdiv length
    + branch.2 * u.Settings.GetExpectedRuntimeFactor
        * minutesFloorPer u.ExpectedRuntime length

/-- A one-task snapshot with both provenance flags set. -/
def info3 : unitInfo :=
  { TaskIDs := ["a"],
    Settings := { settings0 with PatchFactor := 1, CommitQueueFactor := 1 },
    ExpectedRuntime := 0, TimeInQueue := 0, TotalPriority := 0, NumDeps := 0,
    ContainsInCommitQueue := true, ContainsInPatch := true, ContainsNonGroupTasks := true,
    ContainsGenerateTask := false, ContainsStepbackTask := false }

/-- C3 counterexample: on a snapshot with both flags set the source's
scoring function takes the patch branch (value 3), not the commit-queue
branch the spec describes (which would give 403). -/
theorem c3_counterexample :
    info3.ContainsInPatch = true ∧ info3.ContainsInCommitQueue = true ∧
    info3.value = 3 ∧ info3.valueSpecCQPrecedence = 403 ∧
    info3.value ≠ info3.valueSpecCQPrecedence := by decide

/-- C3 as amended: whenever `ContainsInPatch` is set — in particular when
both flags are set — the scoring function evaluates the patch branch and
never reads `ContainsInCommitQueue`, so patch takes precedence over
commit-queue at the snapshot level. -/
theorem c3_patch_branch_precedence (u : unitInfo)
    (hp : u.ContainsInPatch = true) (hc : u.ContainsInCommitQueue = true) :
    u.value = ({ u with ContainsInCommitQueue := false } : unitInfo).value := by
  simp [unitInfo.value, hp]

/-- Witness for C3 at the concrete both-flags snapshot. -/
theorem c3_witness :
    info3.ContainsInPatch = true ∧ info3.ContainsInCommitQueue = true ∧
    info3.value = ({ info3 with ContainsInCommitQueue := false } : unitInfo).value :=
  ⟨by decide, by decide, c3_patch_branch_precedence info3 (by decide) (by decide)⟩

/-! ### C2 -/

/-- C2 counterexample: after both passes on the dependency pair
`[taskA, taskB]`, the alias keys `"a"` and `"b"` name two distinct unit
objects whose task-id sets overlap at `"b"` — the cache does not maintain
global disjointness of unit task sets. -/
theorem c2_counterexample :
    stDep.lookup "a" = some 0 ∧ stDep.lookup "b" = some 1 ∧
    stDep.getUnit 0 ≠ stDep.getUnit 1 ∧
    "b" ∈ (stDep.getUnit 0).Keys ∧ "b" ∈ (stDep.getUnit 1).Keys := by decide

/-- C2 as amended: when two alias keys name the same unit object, adding a
task through either alias mutates that single shared unit and produces
identical caches and identical returned units. -/
theorem c2_create_through_either_alias (st : UnitCache) (k1 k2 : String) (i : Nat) (t : Task)
    (h1 : st.lookup k1 = some i) (h2 : st.lookup k2 = some i) :
    st.Create k1 t = st.Create k2 t := by
  unfold UnitCache.Create
  rw [h1, h2]

/-- Witness for C2 at the two aliases of the task-group unit of `stGV`. -/
theorem c2_witness :
    stGV.lookup "g_bv_p_v" = some 0 ∧ stGV.lookup "a" = some 0 ∧
    stGV.Create "g_bv_p_v" (mkTask "q") = stGV.Create "a" (mkTask "q") :=
  ⟨by decide, by decide,
    c2_create_through_either_alias stGV "g_bv_p_v" "a" 0 (mkTask "q")
      (by decide) (by decide)⟩

/-! ### C4 -/

/-- Non-negativity of the task attributes the rank aggregation reads: the
user priority, the dependent count, the expected runtime, and the queue
timestamps (whichever of `ActivatedTime`/`IngestTime` the aggregation
reads must not lie in the future of `now`). -/
def TaskNonneg (now : Int) (t : Task) : Prop :=
  0 ≤ t.Priority ∧ 0 ≤ t.NumDependents ∧ 0 ≤ t.ExpectedDurationAverage ∧
  (t.ActivatedTime ≠ 0 → t.ActivatedTime ≤ now) ∧
  (t.ActivatedTime = 0 → t.IngestTime ≠ 0 → t.IngestTime ≤ now)

instance (now : Int) (t : Task) : Decidable (TaskNonneg now t) := by
  unfold TaskNonneg
  infer_instance

theorem infoStep_TotalPriority (now : Int) (info : unitInfo) (t : Task) :
    (infoStep now info t).TotalPriority = info.TotalPriority + t.Priority := by
  simp only [infoStep]
  split_ifs <;> simp

theorem infoStep_NumDeps (now : Int) (info : unitInfo) (t : Task) :
    (infoStep now info t).NumDeps = info.NumDeps + t.NumDependents := by
  simp only [infoStep]
  split_ifs <;> simp

theorem infoStep_ExpectedRuntime (now : Int) (info : unitInfo) (t : Task) :
    (infoStep now info t).ExpectedRuntime
      = info.ExpectedRuntime + t.ExpectedDurationAverage := by
  simp only [infoStep]
  split_ifs <;> simp

theorem infoStep_TimeInQueue (now : Int) (info : unitInfo) (t : Task) :
    (infoStep now info t).TimeInQueue
      = info.TimeInQueue +
          (if t.ActivatedTime ≠ 0 then now - t.ActivatedTime
           else if t.IngestTime ≠ 0 then now - t.IngestTime else 0) := by
  simp only [infoStep]
  split_ifs <;> simp

theorem infoStep_TaskIDs (now : Int) (info : unitInfo) (t : Task) :
    (infoStep now info t).TaskIDs = info.TaskIDs ++ [t.Id] := by
  simp only [infoStep]
  split_ifs <;> simp

theorem infoStep_Settings (now : Int) (info : unitInfo) (t : Task) :
    (infoStep now info t).Settings = info.Settings := by
  simp only [infoStep]
  split_ifs <;> simp

theorem foldl_infoStep_Settings (now : Int) (l : List Task) (acc : unitInfo) :
    (l.foldl (infoStep now) acc).Settings = acc.Settings := by
  induction l generalizing acc with
  | nil => rfl
  | cons t ts ih => rw [List.foldl_cons, ih, infoStep_Settings]

theorem foldl_infoStep_TaskIDs_length (now : Int) (l : List Task) (acc : unitInfo) :
    (l.foldl (infoStep now) acc).TaskIDs.length = acc.TaskIDs.length + l.length := by
  induction l generalizing acc with
  | nil => rfl
  | cons t ts ih =>
    rw [List.foldl_cons, ih, infoStep_TaskIDs]
    simp
    omega

theorem foldl_infoStep_bounds (now : Int) (l : List Task) (acc : unitInfo)
    (hacc : 0 ≤ acc.TotalPriority ∧ 0 ≤ acc.TimeInQueue ∧ 0 ≤ acc.NumDeps ∧
      0 ≤ acc.ExpectedRuntime)
    (hl : ∀ t ∈ l, TaskNonneg now t) :
    0 ≤ (l.foldl (infoStep now) acc).TotalPriority ∧
    0 ≤ (l.foldl (infoStep now) acc).TimeInQueue ∧
    0 ≤ (l.foldl (infoStep now) acc).NumDeps ∧
    0 ≤ (l.foldl (infoStep now) acc).ExpectedRuntime := by
  induction l generalizing acc with
  | nil => exact hacc
  | cons t ts ih =>
    rw [List.foldl_cons]
    apply ih
    · obtain ⟨h1, h2, h3, h4, h5⟩ := hl t (List.mem_cons_self t ts)
      refine ⟨?_, ?_, ?_, ?_⟩
      · rw [infoStep_TotalPriority]; omega
      · rw [infoStep_TimeInQueue]
        have : (0:Int) ≤
            (if t.ActivatedTime ≠ 0 then now - t.ActivatedTime
             else if t.IngestTime ≠ 0 then now - t.IngestTime else 0) := by
          split_ifs with ha hb
          · have := h4 ha; omega
          · have := h5 (not_not.mp ha) hb; omega
          · omega
        omega
      · rw [infoStep_NumDeps]; omega
      · rw [infoStep_ExpectedRuntime]; omega
    · exact fun t' ht' => hl t' (List.mem_cons_of_mem t ht')

/-- Strict positivity of the scoring function on a snapshot whose numeric
aggregates are non-negative and whose settings factors are non-negative. -/
theorem unitInfo.value_pos (u : unitInfo)
    (hlen : u.TaskIDs.length ≠ 0)
    (htp : 0 ≤ u.TotalPriority) (htiq : 0 ≤ u.TimeInQueue)
    (hnd : 0 ≤ u.NumDeps) (her : 0 ≤ u.ExpectedRuntime)
    (hf1 : 0 ≤ u.Settings.GetPatchFactor)
    (hf2 : 0 ≤ u.Settings.GetPatchTimeInQueueFactor)
    (hf3 : 0 ≤ u.Settings.GetCommitQueueFactor)
    (hf4 : 0 ≤ u.Settings.GetMainlineTimeInQueueFactor)
    (hf5 : 0 ≤ u.Settings.GetStepbackTaskFactor)
    (hf6 : 0 ≤ u.Settings.GetGenerateTaskFactor)
    (hf7 : 0 ≤ u.Settings.GetExpectedRuntimeFactor) :
    0 < u.value := by
  have hL : (0:Int) < (u.TaskIDs.length : Int) := by exact_mod_cast Nat.pos_of_ne_zero hlen
  simp only [unitInfo.value]
  set L : Int := (u.TaskIDs.length : Int) with hLdef
  set p0 : Int := 1 + u.TotalPriority.tdiv L with hp0def
  have hp0 : 0 < p0 := by
    have := Int.tdiv_nonneg htp (le_of_lt hL)
    omega
  set p1 : Int := if (!u.ContainsNonGroupTasks) = true then p0 + L else p0 with hp1def
  have hp1 : 0 < p1 := by
    rw [hp1def]; split_ifs <;> omega
  set p2 : Int :=
    if u.ContainsGenerateTask = true then p1 * u.Settings.GetGenerateTaskFactor else p1
    with hp2def
  have hp2 : 0 ≤ p2 := by
    rw [hp2def]; split_ifs
    · exact mul_nonneg hp1.le hf6
    · exact hp1.le
  have hmTIQ : 0 ≤ minutesFloorPer u.TimeInQueue L :=
    Int.fdiv_nonneg htiq (by positivity)
  have hmER : 0 ≤ minutesFloorPer u.ExpectedRuntime L :=
    Int.fdiv_nonneg her (by positivity)
  have hndL : 0 ≤ u.NumDeps.tdiv L := Int.tdiv_nonneg hnd hL.le
  by_cases hpa : u.ContainsInPatch = true
  · rw [if_pos hpa]
    have h1 : 0 ≤ p2 * u.Settings.GetPatchFactor := mul_nonneg hp2 hf1
    have h2 : 0 ≤ p2 * u.Settings.GetPatchTimeInQueueFactor * minutesFloorPer u.TimeInQueue L :=
      mul_nonneg (mul_nonneg hp2 hf2) hmTIQ
    have h3 : 0 ≤ p2 * u.NumDeps.tdiv L := mul_nonneg hp2 hndL
    have h4 : 0 ≤ p2 * u.Settings.GetExpectedRuntimeFactor * minutesFloorPer u.ExpectedRuntime L :=
      mul_nonneg (mul_nonneg hp2 hf7) hmER
    dsimp only
    linarith
  · rw [if_neg hpa]
    by_cases hcq : u.ContainsInCommitQueue = true
    · rw [if_pos hcq]
      have h1 : 0 ≤ (p2 + 200) * u.Settings.GetCommitQueueFactor :=
        mul_nonneg (by omega) hf3
      have h3 : 0 ≤ (p2 + 200) * u.NumDeps.tdiv L := mul_nonneg (by omega) hndL
      have h4 : 0 ≤ (p2 + 200) * u.Settings.GetExpectedRuntimeFactor
          * minutesFloorPer u.ExpectedRuntime L :=
        mul_nonneg (mul_nonneg (by omega) hf7) hmER
      dsimp only
      linarith
    · rw [if_neg hcq]
      set m0 : Int :=
        if u.TimeInQueue.tdiv L < sevenDaysNs then
          u.Settings.GetMainlineTimeInQueueFactor * hoursTrunc (sevenDaysNs - u.TimeInQueue.tdiv L)
        else 0
        with hm0def
      have hm0 : 0 ≤ m0 := by
        rw [hm0def]; split_ifs with hql
        · exact mul_nonneg hf4 (Int.tdiv_nonneg (by omega) (by norm_num))
        · exact le_refl 0
      set m1 : Int :=
        if u.ContainsStepbackTask = true then m0 + u.Settings.GetStepbackTaskFactor else m0
        with hm1def
      have hm1 : 0 ≤ m1 := by
        rw [hm1def]; split_ifs <;> omega
      have h1 : 0 ≤ p2 * m1 := mul_nonneg hp2 hm1
      have h3 : 0 ≤ p2 * u.NumDeps.tdiv L := mul_nonneg hp2 hndL
      have h4 : 0 ≤ p2 * u.Settings.GetExpectedRuntimeFactor
          * minutesFloorPer u.ExpectedRuntime L :=
        mul_nonneg (mul_nonneg hp2 hf7) hmER
      dsimp only
      linarith

/-- The aggregation snapshot of a unit whose distro is set, with the
numeric aggregates bounded as `value_pos` needs. -/
theorem Unit.info_bounds (u : Unit) (d : Distro) (now : Int)
    (hd : u.distro = some d)
    (htasks : ∀ t ∈ u.tasks, TaskNonneg now t) :
    (u.info now).Settings = d.PlannerSettings ∧
    (u.info now).TaskIDs.length = u.tasks.length ∧
    0 ≤ (u.info now).TotalPriority ∧ 0 ≤ (u.info now).TimeInQueue ∧
    0 ≤ (u.info now).NumDeps ∧ 0 ≤ (u.info now).ExpectedRuntime := by
  unfold Unit.info
  refine ⟨?_, ?_, ?_⟩
  · rw [foldl_infoStep_Settings]
    simp [infoInit, hd]
  · rw [foldl_infoStep_TaskIDs_length]
    simp [infoInit]
  · exact foldl_infoStep_bounds now u.tasks (infoInit u) (by simp [infoInit]) htasks

/-- A single-task unit with user priority `-5` and the all-zero settings. -/
def unit4 : Unit := (MakeUnit (some distro0)).Add { mkTask "a" with Priority := -5 }

/-- C4 counterexample: a non-empty unit with a distro whose settings
factors are all non-negative, yet `RankValue` is `-3`; the memo write then
stores a non-positive value, so the zero sentinel never latches. -/
theorem c4_counterexample :
    unit4.tasks ≠ [] ∧ unit4.distro = some distro0 ∧
    0 ≤ distro0.PlannerSettings.GetPatchFactor ∧
    0 ≤ distro0.PlannerSettings.GetPatchTimeInQueueFactor ∧
    0 ≤ distro0.PlannerSettings.GetCommitQueueFactor ∧
    0 ≤ distro0.PlannerSettings.GetMainlineTimeInQueueFactor ∧
    0 ≤ distro0.PlannerSettings.GetStepbackTaskFactor ∧
    0 ≤ distro0.PlannerSettings.GetGenerateTaskFactor ∧
    0 ≤ distro0.PlannerSettings.GetExpectedRuntimeFactor ∧
    unit4.RankValue 0 = -3 ∧ ¬ 0 < unit4.RankValue 0 := by decide

/-- C4 as amended: for a non-empty unit whose distro is set, whose settings
factors are non-negative, and whose tasks have non-negative priorities,
dependent counts, runtimes and queue ages, `RankValue` is strictly
positive, and the first computation stores that positive value in
`cachedValue` (so zero correctly marks "uncomputed"). -/
theorem c4_rank_positive (u : Unit) (d : Distro) (now : Int)
    (hne : u.tasks ≠ [])
    (hd : u.distro = some d)
    (hfresh : u.cachedValue = 0)
    (hf1 : 0 ≤ d.PlannerSettings.GetPatchFactor)
    (hf2 : 0 ≤ d.PlannerSettings.GetPatchTimeInQueueFactor)
    (hf3 : 0 ≤ d.PlannerSettings.GetCommitQueueFactor)
    (hf4 : 0 ≤ d.PlannerSettings.GetMainlineTimeInQueueFactor)
    (hf5 : 0 ≤ d.PlannerSettings.GetStepbackTaskFactor)
    (hf6 : 0 ≤ d.PlannerSettings.GetGenerateTaskFactor)
    (hf7 : 0 ≤ d.PlannerSettings.GetExpectedRuntimeFactor)
    (htasks : ∀ t ∈ u.tasks, TaskNonneg now t) :
    0 < u.RankValue now ∧
    (u.RankValueMemo now).2.cachedValue = u.RankValue now := by
  obtain ⟨hS, hLen, htp, htiq, hnd, her⟩ := u.info_bounds d now hd htasks
  have hpos : 0 < (u.info now).value := by
    apply unitInfo.value_pos <;> rw [hS] at * <;> first
      | (rw [hLen]; simpa using fun hc => hne (List.length_eq_zero.mp hc))
      | assumption
  constructor
  · simpa [Unit.RankValue, hfresh] using hpos
  · simp [Unit.RankValue, Unit.RankValueMemo, hfresh]

/-- Witness for C4 at a concrete single-task unit. -/
theorem c4_witness :
    ((MakeUnit (some distro0)).Add (mkTask "a")).tasks ≠ [] ∧
    0 < ((MakeUnit (some distro0)).Add (mkTask "a")).RankValue 0 :=
  ⟨by decide,
    (c4_rank_positive ((MakeUnit (some distro0)).Add (mkTask "a")) distro0 0
      (by decide) (by decide) (by decide) (by decide) (by decide) (by decide)
      (by decide) (by decide) (by decide) (by decide)
      (by decide)).1⟩

/-! ### C10 and the concrete counterexamples for C1, C5, C6, C9 -/

/-- The cache built from the batch `[taskA, taskB, taskAB]`: after the
dependency pass the unit keyed `"a"` holds `{a, b}`, whose sorted-id
concatenation `"ab"` coincides with that of the unit keyed `"ab"`. -/
def stAB : UnitCache := PrepareCache distro0 [taskA, taskB, taskAB]

/-- C10: `Unit.ID()` hashes the concatenation of the sorted task ids with
no separator, so the distinct units `{a, b}` and `{ab}` of `stAB` have
different task-id sets but equal `ID()`; `UnitCache.Export` emits at most
one unit per distinct ID, so the batch task `"ab"` is dropped from the
exported plan. -/
theorem c10_id_collision_drops_task :
    sortStrings ((stAB.getUnit 0).Keys) ≠ sortStrings ((stAB.getUnit 2).Keys) ∧
    (stAB.getUnit 0).ID = (stAB.getUnit 2).ID ∧
    "ab" ∈ [taskA, taskB, taskAB].map Task.Id ∧
    "ab" ∉
      (TaskPlan.Export (PrepareTasksForPlanning distro0 [taskA, taskB, taskAB]) 0).map
        Task.Id := by
  decide

/-- C1 counterexample: the batch `[taskA, taskB, taskAB]` has pairwise
distinct ids, yet the id `"ab"` appears zero times (not once) in the
exported task sequence, because the unit `{ab}` collides on `ID()` with
the unit `{a, b}`. -/
theorem c1_counterexample :
    ([taskA, taskB, taskAB].map Task.Id).Nodup ∧
    List.count "ab"
      ((TaskPlan.Export (PrepareTasksForPlanning distro0 [taskA, taskB, taskAB]) 0).map
        Task.Id) = 0 := by
  decide

def taskX : Task := mkTask "x"

def taskY : Task := mkTask "y"

/-- Two rank-tied single-task units. -/
def stXY : UnitCache := PrepareCache distro0 [taskX, taskY]

/-- C5 counterexample: both key orders are iteration orders of the same
cache (permutations of its key set), yet the exported task sequences
differ — the pipeline output depends on Go's unspecified map iteration
order when units tie on rank. -/
theorem c5_counterexample :
    List.Perm ["x", "y"] (stXY.cache.map Prod.fst) ∧
    List.Perm ["y", "x"] (stXY.cache.map Prod.fst) ∧
    TaskPlan.Export (stXY.ExportOrd ["x", "y"]) 0
      ≠ TaskPlan.Export (stXY.ExportOrd ["y", "x"]) 0 := by
  decide

/-- C6 counterexample: with version grouping enabled, the version-aliased
unit created from a task-group task never receives a distro, so the cache
contains a registered unit with a null distro and the export-time skip is
reachable. -/
theorem c6_counterexample :
    stGV.units.length = 2 ∧ stGV.lookup "v" = some 1 ∧
    (stGV.getUnit 1).distro = none := by
  decide

/-- A task depending on the id `"v"`, which is no task's id but is the
version alias of `mkTask "a"` in a version-grouping cache. -/
def task9 : Task := { mkTask "b" with Version := "w", DependsOn := [{ TaskId := "v" }] }

/-- The cache after pass 1 over `[mkTask "a", task9]` with version grouping
enabled. -/
def st9 : UnitCache :=
  [mkTask "a", task9].foldl (pass1Step distroGV) { units := [], cache := [] }

/-- C9 counterexample: the dependency reference `"v"` names no task of the
batch, yet processing it changes the cache — the `Exists` guard tests
alias keys, and `"v"` is a version alias, so `task9` is pulled into the
version unit. -/
theorem c9_counterexample :
    "v" ∉ [mkTask "a", task9].map Task.Id ∧
    pass2Dep task9 st9 { TaskId := "v" } ≠ st9 ∧
    "b" ∈ ((PrepareCache distroGV [mkTask "a", task9]).getUnit 0).Keys := by
  decide

/-! ### Basic lemmas about the cache state -/

/-- Well-formedness: every alias binding points into the arena.  Every
cache the planner builds satisfies this. -/
def WF (st : UnitCache) : Prop := ∀ p ∈ st.cache, p.2 < st.units.length

theorem alookup_append (c : List (String × Nat)) (k : String) (n : Nat) (k' : String)
    (hk : alookup c k = none) :
    alookup (c ++ [(k, n)]) k' = if k' = k then some n else alookup c k' := by
  unfold alookup at *
  rw [List.find?_append]
  by_cases h : k' = k
  · subst h
    have hnone : c.find? (fun p => p.1 = k') = none := by
      cases hf : c.find? (fun p => p.1 = k') with
      | none => rfl
      | some p => rw [hf] at hk; simp at hk
    rw [hnone]
    simp [List.find?]
  · cases hf : c.find? (fun p => p.1 = k') with
    | none =>
      have hkk : decide (k = k') = false := decide_eq_false (fun hc => h hc.symm)
      simp [hf, List.find?, hkk, h]
    | some p => simp [hf, List.find?, h]

theorem lookup_mem_keys {st : UnitCache} {k : String} {i : Nat} (h : st.lookup k = some i) :
    k ∈ st.cache.map Prod.fst := by
  unfold UnitCache.lookup alookup at h
  cases hf : st.cache.find? (fun p => p.1 = k) with
  | none => rw [hf] at h; cases h
  | some p =>
    have hp := List.find?_some hf
    have hm := List.mem_of_find?_eq_some hf
    simp only [decide_eq_true_eq] at hp
    exact hp ▸ List.mem_map_of_mem Prod.fst hm

theorem lookup_lt_of_WF {st : UnitCache} (hwf : WF st) {k : String} {i : Nat}
    (h : st.lookup k = some i) : i < st.units.length := by
  unfold UnitCache.lookup alookup at h
  cases hf : st.cache.find? (fun p => p.1 = k) with
  | none => rw [hf] at h; cases h
  | some p =>
    rw [hf] at h
    simp only [Option.map_some'] at h
    have h2 : p.2 = i := Option.some.inj h
    exact h2 ▸ hwf p (List.mem_of_find?_eq_some hf)

theorem lookup_modify (st : UnitCache) (i : Nat) (f : Unit → Unit) (k : String) :
    (st.modifyUnit i f).lookup k = st.lookup k := rfl

theorem length_modify (st : UnitCache) (i : Nat) (f : Unit → Unit) :
    (st.modifyUnit i f).units.length = st.units.length := by
  simp [UnitCache.modifyUnit]

theorem getUnit_modify (st : UnitCache) (i : Nat) (f : Unit → Unit) (j : Nat) :
    (st.modifyUnit i f).getUnit j =
      if j = i ∧ i < st.units.length then f (st.getUnit i) else st.getUnit j := by
  by_cases hij : j = i
  · subst hij
    by_cases hlen : j < st.units.length
    · rw [if_pos ⟨rfl, hlen⟩]
      unfold UnitCache.modifyUnit UnitCache.getUnit
      simp [List.getD_eq_getElem?_getD, List.getElem?_set, hlen]
    · rw [if_neg (fun hc : j = j ∧ j < st.units.length => hlen hc.2)]
      unfold UnitCache.modifyUnit UnitCache.getUnit
      rw [List.getD_eq_getElem?_getD, List.getD_eq_getElem?_getD,
        List.getElem?_eq_none (by rw [List.length_set]; exact le_of_not_lt hlen),
        List.getElem?_eq_none (le_of_not_lt hlen)]
  · rw [if_neg (fun hc : j = i ∧ i < st.units.length => hij hc.1)]
    unfold UnitCache.modifyUnit UnitCache.getUnit
    simp [List.getD_eq_getElem?_getD, List.getElem?_set, Ne.symm hij]

theorem getUnit_append (us : List Unit) (v : Unit) (c : List (String × Nat)) (j : Nat) :
    (UnitCache.mk (us ++ [v]) c).getUnit j =
      if j = us.length then v else (UnitCache.mk us c).getUnit j := by
  unfold UnitCache.getUnit
  simp only [List.getD_eq_getElem?_getD, List.getElem?_append]
  by_cases h : j < us.length
  · rw [if_pos h, if_neg (by omega)]
  · rw [if_neg h]
    by_cases he : j = us.length
    · subst he
      simp
    · rw [if_neg he]
      rw [List.getElem?_eq_none (l := [v]) (by simp; omega),
        List.getElem?_eq_none (le_of_not_lt h)]

theorem getUnit_mem {st : UnitCache} {i : Nat} (h : i < st.units.length) :
    st.getUnit i ∈ st.units := by
  unfold UnitCache.getUnit
  rw [List.getD_eq_getElem?_getD, List.getElem?_eq_getElem h]
  exact List.getElem_mem h

theorem default_Unit_Keys : (default : Unit).Keys = [] := rfl

theorem getUnit_oob {st : UnitCache} {i : Nat} (h : ¬ i < st.units.length) :
    st.getUnit i = default := by
  unfold UnitCache.getUnit
  rw [List.getD_eq_getElem?_getD, List.getElem?_eq_none (le_of_not_lt h)]
  rfl

/-! ### Unfolding equations for the cache operations -/

theorem Create_eq_some {st : UnitCache} {k : String} {t : Task} {i : Nat}
    (hk : st.lookup k = some i) :
    st.Create k t = (i, st.modifyUnit i (fun u => u.Add t)) := by
  unfold UnitCache.Create
  rw [hk]

theorem Create_eq_none {st : UnitCache} {k : String} {t : Task} (hk : st.lookup k = none) :
    st.Create k t =
      (st.units.length,
        UnitCache.mk (st.units ++ [NewUnit t]) (st.cache ++ [(k, st.units.length)])) := by
  unfold UnitCache.Create
  rw [hk]

theorem AddNew_eq_some {st : UnitCache} {k : String} {i j : Nat} (hk : st.lookup k = some j) :
    st.AddNew k i = st.modifyUnit j (fun uj => (st.getUnit i).tasks.foldl Unit.Add uj) := by
  unfold UnitCache.AddNew
  rw [hk]

theorem AddNew_eq_none {st : UnitCache} {k : String} {i : Nat} (hk : st.lookup k = none) :
    st.AddNew k i = { st with cache := st.cache ++ [(k, i)] } := by
  unfold UnitCache.AddNew
  rw [hk]

theorem AddWhen_false (st : UnitCache) (k : String) (t : Task) :
    st.AddWhen false k t = st := rfl

theorem AddWhen_true_some {st : UnitCache} {k : String} {t : Task} {i : Nat}
    (hk : st.lookup k = some i) :
    st.AddWhen true k t = st.modifyUnit i (fun u => u.Add t) := by
  unfold UnitCache.AddWhen
  rw [hk]
  rfl

theorem AddWhen_true_none {st : UnitCache} {k : String} {t : Task} (hk : st.lookup k = none) :
    st.AddWhen true k t = (st.Create k t).2 := by
  unfold UnitCache.AddWhen
  rw [hk]
  rfl

theorem Unit.SetDistro_tasks (u : Unit) (d : Option Distro) :
    (u.SetDistro d).tasks = u.tasks := by
  cases d <;> rfl

theorem Unit.SetDistro_Keys (u : Unit) (d : Option Distro) :
    (u.SetDistro d).Keys = u.Keys := by
  unfold Unit.Keys
  rw [Unit.SetDistro_tasks]

/-! ### Monotonicity: cache operations only grow bindings and unit keys -/

/-- The facts every assembly operation preserves: existing alias bindings
keep their target, the key set of the unit at any arena index only grows,
and the arena only grows. -/
def StepMono (st st' : UnitCache) : Prop :=
  (∀ k i, st.lookup k = some i → st'.lookup k = some i) ∧
  (∀ j x, x ∈ (st.getUnit j).Keys → x ∈ (st'.getUnit j).Keys) ∧
  st.units.length ≤ st'.units.length

theorem StepMono.rfl (st : UnitCache) : StepMono st st :=
  ⟨fun _ _ h => h, fun _ _ h => h, le_refl _⟩

theorem StepMono.trans {s1 s2 s3 : UnitCache} (h1 : StepMono s1 s2) (h2 : StepMono s2 s3) :
    StepMono s1 s3 :=
  ⟨fun k i h => h2.1 k i (h1.1 k i h), fun j x h => h2.2.1 j x (h1.2.1 j x h),
    le_trans h1.2.2 h2.2.2⟩

theorem stepMono_modify (st : UnitCache) (i : Nat) (f : Unit → Unit)
    (hf : ∀ u x, x ∈ u.Keys → x ∈ (f u).Keys) : StepMono st (st.modifyUnit i f) := by
  refine ⟨fun k j h => h, ?_, by rw [length_modify]⟩
  intro j x hx
  rw [getUnit_modify]
  split_ifs with hc
  · obtain ⟨h1, _⟩ := hc
    subst h1
    exact hf _ _ hx
  · exact hx

theorem stepMono_create (st : UnitCache) (k : String) (t : Task) :
    StepMono st (st.Create k t).2 := by
  cases hk : st.lookup k with
  | some i =>
    rw [Create_eq_some hk]
    exact stepMono_modify st i _ (fun u x hx => (mem_Keys_Add u t x).mpr (Or.inr hx))
  | none =>
    rw [Create_eq_none hk]
    refine ⟨?_, ?_, by simp⟩
    · intro k' i h
      show alookup (st.cache ++ [(k, st.units.length)]) k' = some i
      rw [alookup_append st.cache k _ k' hk]
      split_ifs with he
      · rw [he] at h
        rw [h] at hk
        cases hk
      · exact h
    · intro j x hx
      show x ∈ ((UnitCache.mk (st.units ++ [NewUnit t]) _).getUnit j).Keys
      rw [getUnit_append]
      split_ifs with he
      · rw [getUnit_oob (by omega)] at hx
        rw [default_Unit_Keys] at hx
        cases hx
      · exact hx

theorem stepMono_addNew (st : UnitCache) (k : String) (i : Nat) :
    StepMono st (st.AddNew k i) := by
  cases hk : st.lookup k with
  | some j =>
    rw [AddNew_eq_some hk]
    exact stepMono_modify st j _
      (fun u x hx => (mem_Keys_foldl_Add _ u x).mpr (Or.inl hx))
  | none =>
    rw [AddNew_eq_none hk]
    refine ⟨?_, fun j x hx => hx, le_refl _⟩
    intro k' j h
    show alookup (st.cache ++ [(k, i)]) k' = some j
    rw [alookup_append st.cache k i k' hk]
    split_ifs with he
    · rw [he] at h
      rw [h] at hk
      cases hk
    · exact h

theorem stepMono_addWhen (st : UnitCache) (c : Bool) (k : String) (t : Task) :
    StepMono st (st.AddWhen c k t) := by
  cases c with
  | false => exact StepMono.rfl st
  | true =>
    cases hk : st.lookup k with
    | some i =>
      rw [AddWhen_true_some hk]
      exact stepMono_modify st i _ (fun u x hx => (mem_Keys_Add u t x).mpr (Or.inr hx))
    | none =>
      rw [AddWhen_true_none hk]
      exact stepMono_create st k t

theorem stepMono_setDistroAt (st : UnitCache) (i : Nat) (d : Option Distro) :
    StepMono st (st.setDistroAt i d) :=
  stepMono_modify st i _ (fun u x hx => by rw [Unit.SetDistro_Keys]; exact hx)

theorem stepMono_pass1Step (d : Distro) (st : UnitCache) (t : Task) :
    StepMono st (pass1Step d st t) := by
  unfold pass1Step
  split_ifs
  · exact (stepMono_create st _ t).trans
      ((stepMono_addNew _ _ _).trans
        ((stepMono_addWhen _ _ _ _).trans (stepMono_setDistroAt _ _ _)))
  · exact (stepMono_create st _ t).trans
      ((stepMono_addNew _ _ _).trans (stepMono_setDistroAt _ _ _))
  · exact (stepMono_create st _ t).trans (stepMono_setDistroAt _ _ _)

theorem stepMono_pass2Dep (t : Task) (st : UnitCache) (dep : Dependency) :
    StepMono st (pass2Dep t st dep) :=
  stepMono_addWhen st _ _ t

theorem stepMono_foldl {α : Type} (f : UnitCache → α → UnitCache)
    (hf : ∀ st a, StepMono st (f st a)) (l : List α) (st : UnitCache) :
    StepMono st (l.foldl f st) := by
  induction l generalizing st with
  | nil => exact StepMono.rfl st
  | cons a l ih => exact (hf st a).trans (ih (f st a))

theorem stepMono_pass2Step (st : UnitCache) (t : Task) :
    StepMono st (pass2Step st t) :=
  stepMono_foldl (pass2Dep t) (stepMono_pass2Dep t) t.DependsOn st

/-! ### Preservation of well-formedness -/

theorem wf_modify {st : UnitCache} (hwf : WF st) (i : Nat) (f : Unit → Unit) :
    WF (st.modifyUnit i f) := by
  intro p hp
  rw [length_modify]
  exact hwf p hp

theorem wf_create {st : UnitCache} (hwf : WF st) (k : String) (t : Task) :
    WF (st.Create k t).2 := by
  cases hk : st.lookup k with
  | some i =>
    rw [Create_eq_some hk]
    exact wf_modify hwf i _
  | none =>
    rw [Create_eq_none hk]
    intro p hp
    simp only [List.length_append, List.length_cons, List.length_nil]
    rcases List.mem_append.mp hp with h | h
    · have := hwf p h
      omega
    · simp only [List.mem_singleton] at h
      rw [h]
      exact Nat.lt_succ_self _

theorem create_lt {st : UnitCache} (hwf : WF st) (k : String) (t : Task) :
    (st.Create k t).1 < (st.Create k t).2.units.length := by
  cases hk : st.lookup k with
  | some i =>
    rw [Create_eq_some hk]
    rw [length_modify]
    exact lookup_lt_of_WF hwf hk
  | none =>
    rw [Create_eq_none hk]
    simp

theorem wf_addNew {st : UnitCache} (hwf : WF st) {i : Nat} (hi : i < st.units.length)
    (k : String) : WF (st.AddNew k i) := by
  cases hk : st.lookup k with
  | some j =>
    rw [AddNew_eq_some hk]
    exact wf_modify hwf j _
  | none =>
    rw [AddNew_eq_none hk]
    intro p hp
    rcases List.mem_append.mp hp with h | h
    · exact hwf p h
    · simp only [List.mem_singleton] at h
      rw [h]
      exact hi

theorem wf_addWhen {st : UnitCache} (hwf : WF st) (c : Bool) (k : String) (t : Task) :
    WF (st.AddWhen c k t) := by
  cases c with
  | false => exact hwf
  | true =>
    cases hk : st.lookup k with
    | some i =>
      rw [AddWhen_true_some hk]
      exact wf_modify hwf i _
    | none =>
      rw [AddWhen_true_none hk]
      exact wf_create hwf k t

theorem wf_setDistroAt {st : UnitCache} (hwf : WF st) (i : Nat) (d : Option Distro) :
    WF (st.setDistroAt i d) :=
  wf_modify hwf i _

theorem wf_pass1Step (d : Distro) {st : UnitCache} (hwf : WF st) (t : Task) :
    WF (pass1Step d st t) := by
  unfold pass1Step
  split_ifs
  · apply wf_setDistroAt
    · apply wf_addWhen
      apply wf_addNew (wf_create hwf _ t)
      exact create_lt hwf _ t
  · apply wf_setDistroAt
    apply wf_addNew (wf_create hwf _ t)
    exact create_lt hwf _ t
  · exact wf_setDistroAt (wf_create hwf _ t) _ _

theorem wf_pass2Step {st : UnitCache} (hwf : WF st) (t : Task) : WF (pass2Step st t) := by
  unfold pass2Step
  induction t.DependsOn generalizing st with
  | nil => exact hwf
  | cons dep l ih => exact ih (wf_addWhen hwf _ _ t)

theorem foldl_invariant {α : Type} (P : UnitCache → Prop) (f : UnitCache → α → UnitCache)
    (hf : ∀ st a, P st → P (f st a)) :
    ∀ (l : List α) (st : UnitCache), P st → P (l.foldl f st) := by
  intro l
  induction l with
  | nil => exact fun st h => h
  | cons a l ih => exact fun st h => ih (f st a) (hf st a h)

theorem wf_prepareCache (d : Distro) (tasks : List Task) : WF (PrepareCache d tasks) := by
  unfold PrepareCache
  apply foldl_invariant WF pass2Step (fun st t h => wf_pass2Step h t)
  apply foldl_invariant WF (pass1Step d) (fun st t h => wf_pass1Step d h t)
  intro p hp
  cases hp

/-! ### Every input task is placed in the cache -/

/-- A task id is placed when some alias binding leads to a unit containing
it. -/
def placed (st : UnitCache) (x : String) : Prop :=
  ∃ i, st.lookup x = some i ∧ x ∈ (st.getUnit i).Keys

theorem placed_mono {st st' : UnitCache} (h : StepMono st st') {x : String}
    (hp : placed st x) : placed st' x := by
  obtain ⟨i, hl, hk⟩ := hp
  exact ⟨i, h.1 x i hl, h.2.1 i x hk⟩

theorem NewUnit_Keys (t : Task) : (NewUnit t).Keys = [t.Id] := rfl

theorem create_mem {st : UnitCache} (hwf : WF st) (k : String) (t : Task) :
    t.Id ∈ ((st.Create k t).2.getUnit (st.Create k t).1).Keys := by
  cases hk : st.lookup k with
  | some i =>
    rw [Create_eq_some hk]
    dsimp only
    rw [getUnit_modify, if_pos ⟨rfl, lookup_lt_of_WF hwf hk⟩]
    exact (mem_Keys_Add _ t _).mpr (Or.inl rfl)
  | none =>
    rw [Create_eq_none hk]
    dsimp only
    rw [getUnit_append, if_pos rfl, NewUnit_Keys]
    exact List.mem_singleton_self _

theorem create_lookup_self {st : UnitCache} (k : String) (t : Task) :
    (st.Create k t).2.lookup k = some (st.Create k t).1 := by
  cases hk : st.lookup k with
  | some i =>
    rw [Create_eq_some hk]
    dsimp only
    rw [lookup_modify]
    exact hk
  | none =>
    rw [Create_eq_none hk]
    dsimp only
    show alookup (st.cache ++ [(k, st.units.length)]) k = some st.units.length
    rw [alookup_append _ _ _ _ hk, if_pos rfl]

theorem addNew_self_placed {st : UnitCache} (hwf : WF st) {x : String} {i : Nat}
    (hx : x ∈ (st.getUnit i).Keys) : placed (st.AddNew x i) x := by
  cases hk : st.lookup x with
  | none =>
    rw [AddNew_eq_none hk]
    refine ⟨i, ?_, hx⟩
    show alookup (st.cache ++ [(x, i)]) x = some i
    rw [alookup_append _ _ _ _ hk, if_pos rfl]
  | some j =>
    rw [AddNew_eq_some hk]
    refine ⟨j, ?_, ?_⟩
    · rw [lookup_modify]
      exact hk
    · rw [getUnit_modify, if_pos ⟨rfl, lookup_lt_of_WF hwf hk⟩]
      exact (mem_Keys_foldl_Add _ _ _).mpr (Or.inr hx)

theorem create_self_placed {st : UnitCache} (hwf : WF st) (t : Task) :
    placed (st.Create t.Id t).2 t.Id :=
  ⟨(st.Create t.Id t).1, create_lookup_self t.Id t, create_mem hwf t.Id t⟩

theorem pass1Step_placed (d : Distro) {st : UnitCache} (hwf : WF st) (t : Task) :
    placed (pass1Step d st t) t.Id := by
  unfold pass1Step
  split_ifs
  · have h1 := create_mem hwf t.GetTaskGroupString t
    have hwf1 := wf_create hwf t.GetTaskGroupString t
    have h2 := addNew_self_placed hwf1 h1
    exact placed_mono ((stepMono_addWhen _ _ _ _).trans (stepMono_setDistroAt _ _ _)) h2
  · have h1 := create_mem hwf t.Version t
    have hwf1 := wf_create hwf t.Version t
    have h2 := addNew_self_placed hwf1 h1
    exact placed_mono (stepMono_setDistroAt _ _ _) h2
  · exact placed_mono (stepMono_setDistroAt _ _ _) (create_self_placed hwf t)

theorem pass1_placed (d : Distro) (l : List Task) :
    ∀ (st : UnitCache), WF st → ∀ x ∈ l, placed (l.foldl (pass1Step d) st) x.Id := by
  induction l with
  | nil =>
    intro st _ x hx
    cases hx
  | cons t ts ih =>
    intro st hwf x hx
    rw [List.foldl_cons]
    rcases List.mem_cons.mp hx with rfl | hx'
    · exact placed_mono
        (stepMono_foldl (pass1Step d) (fun st t => stepMono_pass1Step d st t) ts _)
        (pass1Step_placed d hwf x)
    · exact ih (pass1Step d st t) (wf_pass1Step d hwf t) x hx'

theorem wf_empty : WF { units := [], cache := [] } := by
  intro p hp
  cases hp

theorem prepareCache_placed (d : Distro) (tasks : List Task) :
    ∀ x ∈ tasks, placed (PrepareCache d tasks) x.Id := by
  intro x hx
  unfold PrepareCache
  exact placed_mono (stepMono_foldl pass2Step stepMono_pass2Step tasks _)
    (pass1_placed d tasks _ wf_empty x hx)

theorem wf_pass1 (d : Distro) (tasks : List Task) :
    WF (tasks.foldl (pass1Step d) { units := [], cache := [] }) :=
  foldl_invariant WF (pass1Step d) (fun st t h => wf_pass1Step d h t) tasks _ wf_empty

/-! ### C6: distro assignment with version grouping off -/

/-- Every arena slot holds a unit whose distro is set. -/
def DistroSetIdx (st : UnitCache) : Prop :=
  ∀ j, j < st.units.length → (st.getUnit j).distro ≠ none

/-- The same with one slot exempted (a freshly created unit before its
`SetDistro` call). -/
def DistroSetExcept (st : UnitCache) (n : Nat) : Prop :=
  ∀ j, j < st.units.length → j ≠ n → (st.getUnit j).distro ≠ none

theorem getUnit_eq_getElem {st : UnitCache} {j : Nat} (h : j < st.units.length) :
    st.getUnit j = st.units[j] := by
  unfold UnitCache.getUnit
  rw [List.getD_eq_getElem?_getD, List.getElem?_eq_getElem h]
  rfl

theorem distroExcept_of_create {st : UnitCache} (h : DistroSetIdx st) (k : String) (t : Task) :
    DistroSetExcept (st.Create k t).2 (st.Create k t).1 := by
  cases hk : st.lookup k with
  | some i =>
    rw [Create_eq_some hk]
    intro j hj hne
    dsimp only at hj hne ⊢
    rw [length_modify] at hj
    rw [getUnit_modify]
    split_ifs with hc
    · exact absurd hc.1 hne
    · exact h j hj
  | none =>
    rw [Create_eq_none hk]
    intro j hj hne
    dsimp only at hj hne ⊢
    simp only [List.length_append, List.length_cons, List.length_nil] at hj
    rw [getUnit_append]
    split_ifs with he
    · exact absurd he hne
    · exact h j (by omega)

theorem distroExcept_addNew {st : UnitCache} {n : Nat} (h : DistroSetExcept st n)
    (k : String) (i : Nat) : DistroSetExcept (st.AddNew k i) n := by
  cases hk : st.lookup k with
  | some j =>
    rw [AddNew_eq_some hk]
    intro j' hj' hne
    rw [length_modify] at hj'
    rw [getUnit_modify]
    split_ifs with hc
    · obtain ⟨h1, _⟩ := hc
      subst h1
      rw [foldl_Add_distro]
      exact h j' hj' hne
    · exact h j' hj' hne
  | none =>
    rw [AddNew_eq_none hk]
    exact h

theorem distroIdx_setDistro {st : UnitCache} {n : Nat} (h : DistroSetExcept st n)
    (d : Distro) : DistroSetIdx (st.setDistroAt n (some d)) := by
  intro j hj
  unfold UnitCache.setDistroAt at hj ⊢
  rw [length_modify] at hj
  rw [getUnit_modify]
  split_ifs with hc
  · simp [Unit.SetDistro]
  · by_cases hjn : j = n
    · exact absurd ⟨hjn, hjn ▸ hj⟩ hc
    · exact h j hj hjn

theorem pass1Step_distro (d : Distro) {st : UnitCache}
    (hgv : d.PlannerSettings.ShouldGroupVersions = false)
    (h : DistroSetIdx st) (t : Task) : DistroSetIdx (pass1Step d st t) := by
  unfold pass1Step
  dsimp only
  split_ifs with h1 h2
  · rw [hgv, AddWhen_false]
    exact distroIdx_setDistro (distroExcept_addNew (distroExcept_of_create h _ t) _ _) d
  · rw [hgv] at h2
    cases h2
  · exact distroIdx_setDistro (distroExcept_of_create h _ t) d

theorem distroIdx_addWhen_exists {st : UnitCache} (h : DistroSetIdx st) (k : String)
    (t : Task) : DistroSetIdx (st.AddWhen (st.Exists k) k t) := by
  cases hk : st.lookup k with
  | none =>
    have he : st.Exists k = false := by simp [UnitCache.Exists, hk]
    rw [he, AddWhen_false]
    exact h
  | some i =>
    have he : st.Exists k = true := by simp [UnitCache.Exists, hk]
    rw [he, AddWhen_true_some hk]
    intro j hj
    rw [length_modify] at hj
    rw [getUnit_modify]
    split_ifs with hc
    · obtain ⟨h1, _⟩ := hc
      subst h1
      rw [Unit.Add_distro]
      exact h j hj
    · exact h j hj

theorem pass2fold_distro (t : Task) :
    ∀ (l : List Dependency) (st : UnitCache), DistroSetIdx st →
      DistroSetIdx (l.foldl (pass2Dep t) st) := by
  intro l
  induction l with
  | nil => exact fun st h => h
  | cons dep l ih =>
    intro st h
    exact ih (pass2Dep t st dep) (distroIdx_addWhen_exists h dep.TaskId t)

theorem pass2Step_distro {st : UnitCache} (h : DistroSetIdx st) (t : Task) :
    DistroSetIdx (pass2Step st t) :=
  pass2fold_distro t t.DependsOn st h

/-- C6 as amended: when version grouping is disabled, every unit in the
cache built by `PrepareTasksForPlanning` has a non-null distro, so the
defensive export-time skip is unreachable; with version grouping enabled
the skip is reachable (see the counterexample), because the version alias
of a task-group task creates a unit that never receives `SetDistro`. -/
theorem c6_distro_nonnull (d : Distro) (tasks : List Task)
    (hgv : d.PlannerSettings.ShouldGroupVersions = false) :
    ∀ u ∈ (PrepareCache d tasks).units, u.distro ≠ none := by
  have hidx : DistroSetIdx (PrepareCache d tasks) := by
    unfold PrepareCache
    apply foldl_invariant DistroSetIdx pass2Step (fun st t h => pass2Step_distro h t)
    apply foldl_invariant DistroSetIdx (pass1Step d) (fun st t h => pass1Step_distro d hgv h t)
    intro j hj
    cases hj
  intro u hu
  obtain ⟨j, hjl, hje⟩ := List.getElem_of_mem hu
  have hd := hidx j hjl
  rw [getUnit_eq_getElem hjl, hje] at hd
  exact hd

/-- Witness for C6 at a concrete one-task batch. -/
theorem c6_witness :
    distro0.PlannerSettings.ShouldGroupVersions = false ∧
    ∀ u ∈ (PrepareCache distro0 [taskA]).units, u.distro ≠ none :=
  ⟨by decide, c6_distro_nonnull distro0 [taskA] (by decide)⟩

/-! ### C9: dependency co-location -/

/-- Ids `a` and `b` are co-located: the alias binding for `a` leads to a
unit containing both. -/
def coPlaced (st : UnitCache) (a b : String) : Prop :=
  ∃ i, st.lookup a = some i ∧ a ∈ (st.getUnit i).Keys ∧ b ∈ (st.getUnit i).Keys

theorem coPlaced_mono {st st' : UnitCache} (h : StepMono st st') {a b : String}
    (hp : coPlaced st a b) : coPlaced st' a b := by
  obtain ⟨i, hl, ha, hb⟩ := hp
  exact ⟨i, h.1 a i hl, h.2.1 i a ha, h.2.1 i b hb⟩

theorem addWhen_exists_coPlaces {st : UnitCache} (hwf : WF st) {a : String}
    (hp : placed st a) (t : Task) :
    coPlaced (st.AddWhen (st.Exists a) a t) a t.Id := by
  obtain ⟨i, hl, hk⟩ := hp
  have he : st.Exists a = true := by simp [UnitCache.Exists, hl]
  rw [he, AddWhen_true_some hl]
  refine ⟨i, ?_, ?_, ?_⟩
  · rw [lookup_modify]
    exact hl
  · rw [getUnit_modify, if_pos ⟨rfl, lookup_lt_of_WF hwf hl⟩]
    exact (mem_Keys_Add _ t a).mpr (Or.inr hk)
  · rw [getUnit_modify, if_pos ⟨rfl, lookup_lt_of_WF hwf hl⟩]
    exact (mem_Keys_Add _ t _).mpr (Or.inl rfl)

theorem pass2fold_coPlaces (t : Task) (a : String) (dep : Dependency)
    (hda : dep.TaskId = a) :
    ∀ (l : List Dependency) (st : UnitCache), WF st → placed st a → dep ∈ l →
      coPlaced (l.foldl (pass2Dep t) st) a t.Id := by
  intro l
  induction l with
  | nil =>
    intro st _ _ hdep
    cases hdep
  | cons d0 l ih =>
    intro st hwf hp hdep
    rw [List.foldl_cons]
    rcases List.mem_cons.mp hdep with rfl | hdep'
    · have h1 : coPlaced (pass2Dep t st dep) a t.Id := by
        unfold pass2Dep
        rw [hda]
        exact addWhen_exists_coPlaces hwf hp t
      exact coPlaced_mono (stepMono_foldl (pass2Dep t) (stepMono_pass2Dep t) l _) h1
    · exact ih (pass2Dep t st d0) (wf_addWhen hwf _ _ t)
        (placed_mono (stepMono_pass2Dep t st d0) hp) hdep'

theorem pass2list_coPlaces (a : String) (t : Task) (dep : Dependency)
    (hdep : dep ∈ t.DependsOn) (hda : dep.TaskId = a) :
    ∀ (l : List Task) (st : UnitCache), WF st → placed st a → t ∈ l →
      coPlaced (l.foldl pass2Step st) a t.Id := by
  intro l
  induction l with
  | nil =>
    intro st _ _ ht
    cases ht
  | cons t0 ts ih =>
    intro st hwf hp ht
    rw [List.foldl_cons]
    rcases List.mem_cons.mp ht with rfl | ht'
    · have h1 : coPlaced (pass2Step st t) a t.Id :=
        pass2fold_coPlaces t a dep hda t.DependsOn st hwf hp hdep
      exact coPlaced_mono (stepMono_foldl pass2Step stepMono_pass2Step ts _) h1
    · exact ih (pass2Step st t0) (wf_pass2Step hwf t0)
        (placed_mono (stepMono_pass2Step st t0) hp) ht'

/-- C9 as amended: if `t` lists a dependency on `dd.Id` and both tasks are
in the batch, then after the second pass some alias binding leads to a
unit containing both `dd.Id` and `t.Id`; and a dependency reference whose
id is not an alias key in the cache (in particular one that is no batch
task's id and collides with no version or group alias) leaves the cache
unchanged. -/
theorem c9_dependency_colocation :
    (∀ (d : Distro) (tasks : List Task) (t dd : Task) (dep : Dependency),
      t ∈ tasks → dd ∈ tasks → dep ∈ t.DependsOn → dep.TaskId = dd.Id →
      ∃ i, (PrepareCache d tasks).lookup dd.Id = some i ∧
        dd.Id ∈ ((PrepareCache d tasks).getUnit i).Keys ∧
        t.Id ∈ ((PrepareCache d tasks).getUnit i).Keys) ∧
    (∀ (st : UnitCache) (k : String) (t : Task),
      st.lookup k = none → st.AddWhen (st.Exists k) k t = st) := by
  constructor
  · intro d tasks t dd dep ht hdd hdep hda
    exact pass2list_coPlaces dd.Id t dep hdep hda tasks
      (tasks.foldl (pass1Step d) { units := [], cache := [] })
      (wf_pass1 d tasks) (pass1_placed d tasks _ wf_empty dd hdd) ht
  · intro st k t hk
    have he : st.Exists k = false := by simp [UnitCache.Exists, hk]
    rw [he, AddWhen_false]

/-- Witness for C9 at the dependency pair and at a key absent from a
concrete cache. -/
theorem c9_witness :
    (∃ i, (PrepareCache distro0 [taskA, taskB]).lookup taskA.Id = some i ∧
      taskA.Id ∈ ((PrepareCache distro0 [taskA, taskB]).getUnit i).Keys ∧
      taskB.Id ∈ ((PrepareCache distro0 [taskA, taskB]).getUnit i).Keys) ∧
    stXY.AddWhen (stXY.Exists "zz") "zz" taskA = stXY :=
  ⟨c9_dependency_colocation.1 distro0 [taskA, taskB] taskB taskA { TaskId := "a" }
      (by decide) (by decide) (by decide) (by decide),
    c9_dependency_colocation.2 stXY "zz" taskA (by decide)⟩

/-! ### Export: soundness and coverage of the dedup-by-ID loop -/

/-- No two arena units with equal `ID()` have different task-id sets.  (The
hash collision of C10 is exactly a violation of this.) -/
def NoIDCollision (st : UnitCache) : Prop :=
  ∀ u ∈ st.units, ∀ v ∈ st.units, u.ID = v.ID → sortStrings u.Keys = sortStrings v.Keys

instance (st : UnitCache) : Decidable (NoIDCollision st) := by
  unfold NoIDCollision
  infer_instance

theorem mem_Keys_of_sorted_eq {u v : Unit} (h : sortStrings u.Keys = sortStrings v.Keys)
    {x : String} (hx : x ∈ u.Keys) : x ∈ v.Keys := by
  have h1 := (sortStrings_perm u.Keys).mem_iff (a := x)
  have h2 := (sortStrings_perm v.Keys).mem_iff (a := x)
  rw [← h2, ← h]
  exact h1.mpr hx

theorem exportLoop_cons_none {st : UnitCache} {k : String} {rest seen : List String}
    {acc : TaskPlan} (hk : st.lookup k = none) :
    exportLoop st (k :: rest) seen acc = exportLoop st rest seen acc := by
  rw [exportLoop, hk]

theorem exportLoop_cons_seen {st : UnitCache} {k : String} {rest seen : List String}
    {acc : TaskPlan} {i : Nat} (hk : st.lookup k = some i)
    (hs : (st.getUnit i).ID ∈ seen) :
    exportLoop st (k :: rest) seen acc = exportLoop st rest seen acc := by
  rw [exportLoop, hk]
  dsimp only
  rw [if_pos hs]

theorem exportLoop_cons_nodistro {st : UnitCache} {k : String} {rest seen : List String}
    {acc : TaskPlan} {i : Nat} (hk : st.lookup k = some i)
    (hs : (st.getUnit i).ID ∉ seen) (hd : (st.getUnit i).distro = none) :
    exportLoop st (k :: rest) seen acc
      = exportLoop st rest ((st.getUnit i).ID :: seen) acc := by
  rw [exportLoop, hk]
  dsimp only
  rw [if_neg hs, if_pos hd]

theorem exportLoop_cons_emit {st : UnitCache} {k : String} {rest seen : List String}
    {acc : TaskPlan} {i : Nat} (hk : st.lookup k = some i)
    (hs : (st.getUnit i).ID ∉ seen) (hd : (st.getUnit i).distro ≠ none) :
    exportLoop st (k :: rest) seen acc
      = exportLoop st rest ((st.getUnit i).ID :: seen) (acc ++ [st.getUnit i]) := by
  rw [exportLoop, hk]
  dsimp only
  rw [if_neg hs, if_neg hd]

theorem exportLoop_acc_sub (st : UnitCache) :
    ∀ (ord seen : List String) (acc : TaskPlan) (u : Unit), u ∈ acc →
      u ∈ exportLoop st ord seen acc := by
  intro ord
  induction ord with
  | nil => exact fun seen acc u hu => hu
  | cons k rest ih =>
    intro seen acc u hu
    cases hk : st.lookup k with
    | none =>
      rw [exportLoop_cons_none hk]
      exact ih _ _ _ hu
    | some i =>
      by_cases hs : (st.getUnit i).ID ∈ seen
      · rw [exportLoop_cons_seen hk hs]
        exact ih _ _ _ hu
      · by_cases hd : (st.getUnit i).distro = none
        · rw [exportLoop_cons_nodistro hk hs hd]
          exact ih _ _ _ hu
        · rw [exportLoop_cons_emit hk hs hd]
          exact ih _ _ _ (List.mem_append_left _ hu)

theorem exportLoop_sound (st : UnitCache) :
    ∀ (ord seen : List String) (acc : TaskPlan) (u : Unit),
      u ∈ exportLoop st ord seen acc →
      u ∈ acc ∨ ∃ k i, k ∈ ord ∧ st.lookup k = some i ∧ u = st.getUnit i := by
  intro ord
  induction ord with
  | nil => exact fun seen acc u hu => Or.inl hu
  | cons k rest ih =>
    intro seen acc u hu
    have lift : (u ∈ acc ∨ ∃ k' i, k' ∈ rest ∧ st.lookup k' = some i ∧ u = st.getUnit i) →
        u ∈ acc ∨ ∃ k' i, k' ∈ k :: rest ∧ st.lookup k' = some i ∧ u = st.getUnit i := by
      rintro (h | ⟨k', i, hk', hl, he⟩)
      · exact Or.inl h
      · exact Or.inr ⟨k', i, List.mem_cons_of_mem k hk', hl, he⟩
    cases hk : st.lookup k with
    | none =>
      rw [exportLoop_cons_none hk] at hu
      exact lift (ih _ _ _ hu)
    | some i =>
      by_cases hs : (st.getUnit i).ID ∈ seen
      · rw [exportLoop_cons_seen hk hs] at hu
        exact lift (ih _ _ _ hu)
      · by_cases hd : (st.getUnit i).distro = none
        · rw [exportLoop_cons_nodistro hk hs hd] at hu
          exact lift (ih _ _ _ hu)
        · rw [exportLoop_cons_emit hk hs hd] at hu
          rcases ih _ _ _ hu with hacc | hex
          · rcases List.mem_append.mp hacc with h | h
            · exact Or.inl h
            · exact Or.inr ⟨k, i, List.mem_cons_self k rest, hk,
                List.mem_singleton.mp h⟩
          · exact lift (Or.inr hex)

theorem exportLoop_covers (st : UnitCache) (hwf : WF st) (hID : NoIDCollision st)
    (hD : ∀ u ∈ st.units, u.distro ≠ none) :
    ∀ (ord seen : List String) (acc : TaskPlan),
      (∀ u ∈ acc, u ∈ st.units) →
      (∀ s ∈ seen, ∃ u ∈ acc, u.ID = s) →
      ∀ (k : String) (i : Nat) (x : String), k ∈ ord → st.lookup k = some i →
        x ∈ (st.getUnit i).Keys →
        ∃ u ∈ exportLoop st ord seen acc, x ∈ u.Keys := by
  intro ord
  induction ord with
  | nil =>
    intro seen acc _ _ k i x hk _ _
    cases hk
  | cons k0 rest ih =>
    intro seen acc hacc hseen k i x hk hl hx
    cases hk0 : st.lookup k0 with
    | none =>
      rw [exportLoop_cons_none hk0]
      rcases List.mem_cons.mp hk with rfl | hk'
      · rw [hl] at hk0
        cases hk0
      · exact ih seen acc hacc hseen k i x hk' hl hx
    | some i0 =>
      have hi0 : i0 < st.units.length := lookup_lt_of_WF hwf hk0
      by_cases hs : (st.getUnit i0).ID ∈ seen
      · rw [exportLoop_cons_seen hk0 hs]
        rcases List.mem_cons.mp hk with rfl | hk'
        · have hii : i = i0 := by
            rw [hl] at hk0
            exact Option.some.inj hk0
          subst hii
          obtain ⟨v, hv, hvid⟩ := hseen _ hs
          have hst := hID v (hacc v hv) (st.getUnit i) (getUnit_mem hi0) hvid
          exact ⟨v, exportLoop_acc_sub st rest seen acc v hv,
            mem_Keys_of_sorted_eq hst.symm hx⟩
        · exact ih seen acc hacc hseen k i x hk' hl hx
      · have hd0 : (st.getUnit i0).distro ≠ none := hD _ (getUnit_mem hi0)
        rw [exportLoop_cons_emit hk0 hs hd0]
        have hacc' : ∀ u ∈ acc ++ [st.getUnit i0], u ∈ st.units := by
          intro u hu
          rcases List.mem_append.mp hu with h | h
          · exact hacc u h
          · rw [List.mem_singleton.mp h]
            exact getUnit_mem hi0
        have hseen' : ∀ s ∈ (st.getUnit i0).ID :: seen,
            ∃ u ∈ acc ++ [st.getUnit i0], u.ID = s := by
          intro s hsm
          rcases List.mem_cons.mp hsm with rfl | hsm'
          · exact ⟨st.getUnit i0,
              List.mem_append_right _ (List.mem_singleton_self _), rfl⟩
          · obtain ⟨u, hu, hid⟩ := hseen s hsm'
            exact ⟨u, List.mem_append_left _ hu, hid⟩
        rcases List.mem_cons.mp hk with rfl | hk'
        · have hii : i = i0 := by
            rw [hl] at hk0
            exact Option.some.inj hk0
          subst hii
          exact ⟨st.getUnit i,
            exportLoop_acc_sub st rest _ _ _
              (List.mem_append_right _ (List.mem_singleton_self _)), hx⟩
        · exact ih _ _ hacc' hseen' k i x hk' hl hx

theorem exportOrd_sound {st : UnitCache} {ord : List String} {u : Unit}
    (hu : u ∈ st.ExportOrd ord) :
    ∃ k i, k ∈ ord ∧ st.lookup k = some i ∧ u = st.getUnit i := by
  rcases exportLoop_sound st ord [] [] u hu with h | h
  · cases h
  · exact h

/-! ### The flattening of `TaskPlan.Export`: membership and uniqueness -/

theorem dedupTasks_cons_seen {t : Task} {rest : List Task} {seen : List String}
    (hs : t.Id ∈ seen) : dedupTasks (t :: rest) seen = dedupTasks rest seen := by
  rw [dedupTasks]
  rw [if_pos hs]

theorem dedupTasks_cons_new {t : Task} {rest : List Task} {seen : List String}
    (hs : t.Id ∉ seen) :
    dedupTasks (t :: rest) seen = t :: dedupTasks rest (t.Id :: seen) := by
  rw [dedupTasks]
  rw [if_neg hs]

theorem mem_dedupTasks :
    ∀ (l : List Task) (seen : List String) (x : String),
      x ∈ (dedupTasks l seen).map Task.Id ↔ x ∈ l.map Task.Id ∧ x ∉ seen := by
  intro l
  induction l with
  | nil =>
    intro seen x
    simp [dedupTasks]
  | cons t rest ih =>
    intro seen x
    by_cases hs : t.Id ∈ seen
    · rw [dedupTasks_cons_seen hs, ih]
      simp only [List.map_cons, List.mem_cons]
      constructor
      · rintro ⟨hm, hn⟩
        exact ⟨Or.inr hm, hn⟩
      · rintro ⟨hm | hm, hn⟩
        · exact absurd (hm ▸ hs) hn
        · exact ⟨hm, hn⟩
    · rw [dedupTasks_cons_new hs]
      simp only [List.map_cons, List.mem_cons]
      rw [ih]
      constructor
      · rintro (rfl | ⟨hm, hn⟩)
        · exact ⟨Or.inl rfl, hs⟩
        · exact ⟨Or.inr hm, fun hc => hn (List.mem_cons_of_mem _ hc)⟩
      · rintro ⟨hm, hn⟩
        by_cases hxt : x = t.Id
        · exact Or.inl hxt
        · rcases hm with hm | hm
          · exact absurd hm hxt
          · refine Or.inr ⟨hm, fun hc => ?_⟩
            rcases List.mem_cons.mp hc with h | h
            · exact hxt h
            · exact hn h

theorem nodup_dedupTasks :
    ∀ (l : List Task) (seen : List String), ((dedupTasks l seen).map Task.Id).Nodup := by
  intro l
  induction l with
  | nil =>
    intro seen
    simp [dedupTasks]
  | cons t rest ih =>
    intro seen
    by_cases hs : t.Id ∈ seen
    · rw [dedupTasks_cons_seen hs]
      exact ih seen
    · rw [dedupTasks_cons_new hs]
      simp only [List.map_cons, List.nodup_cons]
      refine ⟨fun hc => ?_, ih _⟩
      have := (mem_dedupTasks rest (t.Id :: seen) t.Id).mp hc
      exact this.2 (List.mem_cons_self _ _)

theorem mem_sortTasks (l : TaskList) (t : Task) : t ∈ sortTasks l ↔ t ∈ l :=
  (List.perm_insertionSort _ l).mem_iff

theorem mem_sortUnits (now : Int) (tpl : TaskPlan) (u : Unit) :
    u ∈ sortUnits now tpl ↔ u ∈ tpl :=
  (List.perm_insertionSort _ tpl).mem_iff

theorem mem_tplExport (tpl : TaskPlan) (now : Int) (x : String) :
    x ∈ (TaskPlan.Export tpl now).map Task.Id ↔ ∃ u ∈ tpl, x ∈ u.Keys := by
  unfold TaskPlan.Export
  rw [mem_dedupTasks]
  simp only [List.not_mem_nil, not_false_iff, and_true]
  constructor
  · intro h
    obtain ⟨t, ht, rfl⟩ := List.mem_map.mp h
    obtain ⟨l, hl, htl⟩ := List.mem_flatten.mp ht
    obtain ⟨u, hu, rfl⟩ := List.mem_map.mp hl
    exact ⟨u, (mem_sortUnits now tpl u).mp hu,
      List.mem_map_of_mem Task.Id ((mem_sortTasks _ t).mp htl)⟩
  · rintro ⟨u, hu, hx⟩
    obtain ⟨t, ht, rfl⟩ := List.mem_map.mp hx
    apply List.mem_map_of_mem
    apply List.mem_flatten.mpr
    exact ⟨sortTasks u.Export,
      List.mem_map_of_mem _ ((mem_sortUnits now tpl u).mpr hu),
      (mem_sortTasks _ t).mpr ht⟩

theorem nodup_tplExport (tpl : TaskPlan) (now : Int) :
    ((TaskPlan.Export tpl now).map Task.Id).Nodup :=
  nodup_dedupTasks _ []

theorem count_eq_one_of_nodup_of_mem {l : List String} {a : String} (hn : l.Nodup)
    (ha : a ∈ l) : l.count a = 1 := by
  have h1 := List.nodup_iff_count_le_one.mp hn a
  have h2 : 0 < l.count a := List.count_pos_iff.mpr ha
  omega

/-! ### C1 and C5 -/

/-- C1 as amended: for a batch with pairwise-distinct ids, whenever no two
units of the assembled cache have colliding `ID()`s and every cached unit
has a distro (both hold, for example, when version grouping is off and no
sorted-id concatenations collide), every task id of the batch appears
exactly once in `TaskPlan.Export` of the exported plan — under any
map-iteration order of the cache. -/
theorem c1_task_coverage (d : Distro) (tasks : List Task) (now : Int) (ord : List String)
    (hord : ord.Perm ((PrepareCache d tasks).cache.map Prod.fst))
    (hids : (tasks.map Task.Id).Nodup)
    (hID : NoIDCollision (PrepareCache d tasks))
    (hD : ∀ u ∈ (PrepareCache d tasks).units, u.distro ≠ none) :
    ∀ t ∈ tasks,
      ((TaskPlan.Export ((PrepareCache d tasks).ExportOrd ord) now).map Task.Id).count t.Id
        = 1 := by
  intro t ht
  obtain ⟨i, hl, hk⟩ := prepareCache_placed d tasks t ht
  have hmemord : t.Id ∈ ord := hord.mem_iff.mpr (lookup_mem_keys hl)
  obtain ⟨u, hu, hx⟩ :=
    exportLoop_covers (PrepareCache d tasks) (wf_prepareCache d tasks) hID hD ord [] []
      (fun u hu => absurd hu (List.not_mem_nil u))
      (fun s hs => absurd hs (List.not_mem_nil s))
      t.Id i t.Id hmemord hl hk
  exact count_eq_one_of_nodup_of_mem (nodup_tplExport _ now)
    ((mem_tplExport _ now t.Id).mpr ⟨u, hu, hx⟩)

/-- Witness for C1 at a concrete two-task batch using the canonical
iteration order. -/
theorem c1_witness :
    ((PrepareCache distro0 [taskX, taskY]).cache.map Prod.fst).Perm
      ((PrepareCache distro0 [taskX, taskY]).cache.map Prod.fst) ∧
    ([taskX, taskY].map Task.Id).Nodup ∧
    ((TaskPlan.Export
        ((PrepareCache distro0 [taskX, taskY]).ExportOrd
          ((PrepareCache distro0 [taskX, taskY]).cache.map Prod.fst)) 0).map
      Task.Id).count taskX.Id = 1 :=
  ⟨List.Perm.refl _, by decide,
    c1_task_coverage distro0 [taskX, taskY] 0 _ (List.Perm.refl _) (by decide)
      (by decide) (by decide) taskX (by decide)⟩

/-- C5 as amended: with identical inputs, the pipeline output is a
function of the iteration order only through the order of the emitted
sequence — as long as the cache has no `ID()` collisions and every unit
has a distro, the set of emitted task ids is the same for every two
iteration orders (the sequences themselves can differ, see the
counterexample). -/
theorem c5_output_id_set_deterministic (d : Distro) (tasks : List Task) (now : Int)
    (ord1 ord2 : List String)
    (h1 : ord1.Perm ((PrepareCache d tasks).cache.map Prod.fst))
    (h2 : ord2.Perm ((PrepareCache d tasks).cache.map Prod.fst))
    (hID : NoIDCollision (PrepareCache d tasks))
    (hD : ∀ u ∈ (PrepareCache d tasks).units, u.distro ≠ none) :
    ∀ x : String,
      x ∈ (TaskPlan.Export ((PrepareCache d tasks).ExportOrd ord1) now).map Task.Id ↔
      x ∈ (TaskPlan.Export ((PrepareCache d tasks).ExportOrd ord2) now).map Task.Id := by
  have aux : ∀ (o1 o2 : List String),
      o1.Perm ((PrepareCache d tasks).cache.map Prod.fst) →
      o2.Perm ((PrepareCache d tasks).cache.map Prod.fst) →
      ∀ x : String,
        x ∈ (TaskPlan.Export ((PrepareCache d tasks).ExportOrd o1) now).map Task.Id →
        x ∈ (TaskPlan.Export ((PrepareCache d tasks).ExportOrd o2) now).map Task.Id := by
    intro o1 o2 ho1 ho2 x hx
    obtain ⟨u, hu, hxu⟩ := (mem_tplExport _ now x).mp hx
    obtain ⟨k, i, hko, hl, rfl⟩ := exportOrd_sound hu
    have hko2 : k ∈ o2 := ho2.mem_iff.mpr (ho1.mem_iff.mp hko)
    obtain ⟨v, hv, hxv⟩ :=
      exportLoop_covers (PrepareCache d tasks) (wf_prepareCache d tasks) hID hD o2 [] []
        (fun u hu => absurd hu (List.not_mem_nil u))
        (fun s hs => absurd hs (List.not_mem_nil s))
        k i x hko2 hl hxu
    exact (mem_tplExport _ now x).mpr ⟨v, hv, hxv⟩
  exact fun x => ⟨aux ord1 ord2 h1 h2 x, aux ord2 ord1 h2 h1 x⟩

/-- Witness for C5 at the two iteration orders of the rank-tied cache. -/
theorem c5_witness :
    (["x", "y"] : List String).Perm (stXY.cache.map Prod.fst) ∧
    (["y", "x"] : List String).Perm (stXY.cache.map Prod.fst) ∧
    ("x" ∈ (TaskPlan.Export (stXY.ExportOrd ["x", "y"]) 0).map Task.Id ↔
      "x" ∈ (TaskPlan.Export (stXY.ExportOrd ["y", "x"]) 0).map Task.Id) :=
  ⟨by decide, by decide,
    c5_output_id_set_deterministic distro0 [taskX, taskY] 0 ["x", "y"] ["y", "x"]
      (by decide) (by decide) (by decide) (by decide) "x"⟩

end Scheduler
